import Mathlib

/-!
# merec: execution core

A shallow embedding of the Go package `merec` (errors.go, models.go, options.go,
run_from_input.go, run_from_chan.go, run_from_chan_pool.go, synchronization.go) and of the test
stub `stabCall` (setup_test.go).

Conventions of the embedding

* A Go `error` is an `Option Err` (`none` is `nil`).  `Err.new i` is a value made by
  `errors.New` (compared by identity, the identity being `i`), `Err.wrap a b` is the value
  of `fmt.Errorf("%w: %w", a, b)`.
* A Go function value may read the clock and mutate what it closes over, so a call threads
  a `World` (clock reading and closed-over state) and may panic (`none`).
* A background goroutine is represented by what it does: the values it sends, whether it
  closes its channel, what it leaves unread.  The worker pool, where several goroutines
  interleave, is a step function on an explicit state, driven by a schedule.
* What the process and the scheduler decide is a parameter: the largest size `make`
  allocates (`Runtime`), and, for the test stub, the delays around its timer, a cancellation
  of the token by its owner and the choice of a `select` with two ready cases (`Timing`).
-/

namespace Merec

/-! ## errors.go -/

/-- Non-nil Go error values: the comparable values that `errors.New` and `fmt.Errorf` make.
Error types that bring their own `Is` or `Unwrap` method are not modelled. -/
inductive Err where
  | new (id : Nat)
  | wrap (a b : Err)
  deriving DecidableEq, Repr

def ErrBusinessLogic : Err := Err.new 0
def ErrCtxCancel : Err := Err.new 1
def ErrCtxDeadline : Err := Err.new 2
def ErrNilContext : Err := Err.new 3
def ErrNilInChan : Err := Err.new 4
def ErrNilCallFunc : Err := Err.new 5
def ErrMustStop : Err := Err.new 6

/-- Library `fmt.Errorf("%w: %w", a, b)` on two non-nil errors. -/
def Errorf (a b : Err) : Err := Err.wrap a b

/-- Library `errors.Is` on a non-nil error: the error itself or, through `Unwrap() []error`,
anything in its tree equals the target. -/
def Err.Is : Err → Err → Bool
  | Err.new i, t => decide (Err.new i = t)
  | Err.wrap a b, t => decide (Err.wrap a b = t) || (Err.Is a t || Err.Is b t)

/-- Library `errors.Is(err, target)` with a non-nil target: false on a nil error. -/
def errorsIs (err : Option Err) (target : Err) : Bool :=
  match err with
  | none => false
  | some e => e.Is target

/-! ## context and time (standard library) -/

/-- The two values `ctx.Err()` can take once a context is done. -/
inductive CtxErr where
  | Canceled
  | DeadlineExceeded
  deriving DecidableEq, Repr

/-- A non-nil `context.Context`: its deadline, if any, and the cause recorded when it was
cancelled.  Time and durations are integers (nanoseconds). -/
structure Context where
  deadline : Option Int
  cause : Option CtxErr
  deriving DecidableEq, Repr

/-- Value of `ctx.Err()` when the clock reads `now`. -/
def Context.Err (c : Context) (now : Int) : Option CtxErr :=
  match c.cause with
  | some e => some e
  | none =>
    match c.deadline with
    | some d => if d ≤ now then some CtxErr.DeadlineExceeded else none
    | none => none

/-- Whether `ctx.Done()` is closed when the clock reads `now`. -/
def Context.Done (c : Context) (now : Int) : Bool := (c.Err now).isSome

/-- Library `context.Background()`. -/
def Background : Context := { deadline := none, cause := none }

/-- Library `context.WithCancel(parent)`: the child has the parent deadline and is done as soon
as the parent is. -/
def WithCancel (parent : Context) (now : Int) : Context :=
  { deadline := parent.deadline, cause := parent.Err now }

/-- The cancel function returned with a derived context: first cause wins. -/
def Context.cancel (c : Context) (now : Int) : Context :=
  match c.Err now with
  | some e => { c with cause := some e }
  | none => { c with cause := some CtxErr.Canceled }

/-- Library `context.WithDeadline(parent, d)`: keeps the parent deadline when it is earlier. -/
def WithDeadline (parent : Context) (now : Int) (d : Int) : Context :=
  let fresh : Context :=
    { deadline := some d,
      cause := match parent.Err now with
        | some e => some e
        | none => if d ≤ now then some CtxErr.DeadlineExceeded else none }
  match parent.deadline with
  | some cur => if cur < d then WithCancel parent now else fresh
  | none => fresh

/-- Library `context.WithTimeout(parent, timeout)` is `WithDeadline(parent, now + timeout)`. -/
def WithTimeout (parent : Context) (now : Int) (timeout : Int) : Context :=
  WithDeadline parent now (now + timeout)

/-- What a function value can observe and change besides its arguments: the clock, and the
state it closes over. -/
structure World (σ : Type) where
  now : Int
  st : σ

/-! ## models.go -/

/-- A non-nil `Call[In, Out]`: `none` is a panic, otherwise the returned pair and the world
after the call. -/
abbrev CallFn (In Out σ : Type) : Type :=
  Context → In → World σ → Option ((Out × Option Err) × World σ)

/-- A `Call[In, Out]` value; `none` is the nil function. -/
abbrev Call (In Out σ : Type) : Type := Option (CallFn In Out σ)

/-- Calling a `Call` value: calling nil panics. -/
def invoke {In Out σ : Type} (call : Call In Out σ) : CallFn In Out σ :=
  match call with
  | none => fun _ _ _ => none
  | some f => f

/-- The interface `CallOption[In, Out]`, for a value that is not nil: the options handed to a
runner are values made by the constructors of options.go or other implementations of the
interface. -/
structure CallOption (In Out σ : Type) where
  WithOption : Call In Out σ → Call In Out σ

/-- The struct `Result[Out]`. -/
structure Result (Out : Type) where
  value : Out
  err : Option Err
  deriving DecidableEq, Repr

def Result.Value {Out : Type} (r : Result Out) : Out := r.value

def Result.Err {Out : Type} (r : Result Out) : Option Err := r.err

/-- Go `Result[Out]{value: value}`; the error field is nil. -/
def ValueResult {Out : Type} (value : Out) : Result Out := { value := value, err := none }

/-- Go `Result[Out]{err: err}`; the value field is the zero value of `Out`. -/
def ErrorResult {Out : Type} [Inhabited Out] (err : Option Err) : Result Out :=
  { value := default, err := err }

/-! ## options.go -/

structure timeoutOption where
  timeout : Int

/-- `timeoutOption.WithOption`: the closure derives a context with `context.WithTimeout` and
calls `next` on it.  The deferred `ctxCsl()` only cancels the derived context after `next` has
returned. -/
def timeoutOption.WithOption {In Out σ : Type} (opt : timeoutOption) (next : Call In Out σ) :
    Call In Out σ :=
  some (fun ctx x w =>
    let ctx1 := WithTimeout ctx w.now opt.timeout
    invoke next ctx1 x w)

def NewTimeoutOption {In Out σ : Type} (timeout : Int) : CallOption In Out σ :=
  { WithOption := timeoutOption.WithOption { timeout := timeout } }

structure failFastOption where
  mistakesLimit : Int

/-- `failFastOption.WithOption`: the receiver is unnamed in the source, the limit is not
read. -/
def failFastOption.WithOption {In Out σ : Type} [Inhabited Out] (_ff : failFastOption)
    (next : Call In Out σ) : Call In Out σ :=
  some (fun ctx x w =>
    match invoke next ctx x w with
    | none => none
    | some ((out, err), w1) =>
      match err with
      | some e => some ((default, some (Errorf ErrMustStop e)), w1)
      | none => some ((out, none), w1))

def NewFailFastOptionOption {In Out σ : Type} [Inhabited Out] (mistakesLimit : Int) :
    CallOption In Out σ :=
  { WithOption := failFastOption.WithOption { mistakesLimit := mistakesLimit } }

/-- The loop `next := call; for _, o := range options { next = o.WithOption(next) }` that
opens RunFromInput, RunFromChan and RunWorkerPool. -/
def applyOptions {In Out σ : Type} (next : Call In Out σ) :
    List (CallOption In Out σ) → Call In Out σ
  | [] => next
  | o :: rest => applyOptions (o.WithOption next) rest

/-! ## run_from_input.go, run_from_chan.go -/

/-- An input channel as its reader sees it: capacity, the items that arrive on it in order,
and whether it is closed after the last of them. -/
structure InChan (In : Type) where
  cap : Nat
  items : List In
  closed : Bool

/-- What the goroutine started by a runner does: the Results it sends on `resCh` in order,
whether it closes `resCh`, the inputs it called the Call on, the items it leaves unread, the
world it leaves, and whether it panicked. -/
structure Run (In Out σ : Type) where
  emitted : List (Result Out)
  closed : Bool
  invoked : List In
  unread : List In
  world : World σ
  panicked : Bool

def validateRunFromInputInputs {In Out σ : Type} (ctx : Option Context) (call : Call In Out σ) :
    Option Err :=
  if ctx.isNone then some ErrNilContext
  else if call.isNone then some ErrNilCallFunc
  else none

def validateRunFromChanInputs {In Out σ : Type} (ctx : Option Context)
    (inCh : Option (InChan In)) (call : Call In Out σ) : Option Err :=
  if ctx.isNone then some ErrNilContext
  else if inCh.isNone then some ErrNilInChan
  else if call.isNone then some ErrNilCallFunc
  else none

/-- The goroutine of runFromInput: one call, one send, close.  `errors.Is` is not consulted
here. -/
def runFromInput.goroutine {In Out σ : Type} [Inhabited Out] (ctx : Context) (x : In)
    (call : CallFn In Out σ) (w : World σ) : Run In Out σ :=
  match call ctx x w with
  | none =>
    { emitted := [], closed := true, invoked := [x], unread := [], world := w, panicked := true }
  | some ((res, err), w1) =>
    match err with
    | some e =>
      { emitted := [ErrorResult (some (Errorf ErrBusinessLogic e))], closed := true,
        invoked := [x], unread := [], world := w1, panicked := false }
    | none =>
      { emitted := [ValueResult res], closed := true, invoked := [x], unread := [],
        world := w1, panicked := false }

/-- The returned pair is (stream, error); the stream is the goroutine that feeds it. -/
def runFromInput {In Out σ : Type} [Inhabited Out] (ctx : Option Context) (x : In)
    (call : Call In Out σ) (w : World σ) : Option (Run In Out σ) × Option Err :=
  match validateRunFromInputInputs ctx call with
  | some err => (none, some err)
  | none =>
    match ctx, call with
    | some c, some f => (some (runFromInput.goroutine c x f w), none)
    | _, _ => (none, none)

def RunFromInput {In Out σ : Type} [Inhabited Out] (ctx : Option Context) (x : In)
    (call : Call In Out σ) (options : List (CallOption In Out σ)) (w : World σ) :
    Option (Run In Out σ) × Option Err :=
  runFromInput ctx x (applyOptions call options) w

/-- The goroutine of runFromChan, `for in := range inCh { ... }` over the items that arrive.
`errors.Is(err, ErrMustStop)` is false on a nil error, so the first test of the loop body is
made under `some e`; with no item left the loop ends, and `resCh` is closed, only if the input
is closed. -/
def runFromChan.goroutine {In Out σ : Type} [Inhabited Out] (ctx : Context)
    (call : CallFn In Out σ) (inClosed : Bool) : List In → World σ → Run In Out σ
  | [], w =>
    { emitted := [], closed := inClosed, invoked := [], unread := [], world := w,
      panicked := false }
  | x :: rest, w =>
    match call ctx x w with
    | none =>
      { emitted := [], closed := true, invoked := [x], unread := rest, world := w,
        panicked := true }
    | some ((res, err), w1) =>
      match err with
      | some e =>
        if e.Is ErrMustStop then
          { emitted := [ErrorResult (some (Errorf ErrBusinessLogic e))], closed := true,
            invoked := [x], unread := rest, world := w1, panicked := false }
        else
          let r := runFromChan.goroutine ctx call inClosed rest w1
          { r with emitted := ErrorResult (some (Errorf ErrBusinessLogic e)) :: r.emitted,
                   invoked := x :: r.invoked }
      | none =>
        let r := runFromChan.goroutine ctx call inClosed rest w1
        { r with emitted := ValueResult res :: r.emitted, invoked := x :: r.invoked }

def runFromChan {In Out σ : Type} [Inhabited Out] (ctx : Option Context)
    (inCh : Option (InChan In)) (call : Call In Out σ) (w : World σ) :
    Option (Run In Out σ) × Option Err :=
  match validateRunFromChanInputs ctx inCh call with
  | some err => (none, some err)
  | none =>
    match ctx, inCh, call with
    | some c, some ch, some f => (some (runFromChan.goroutine c f ch.closed ch.items w), none)
    | _, _, _ => (none, none)

def RunFromChan {In Out σ : Type} [Inhabited Out] (ctx : Option Context)
    (inCh : Option (InChan In)) (call : Call In Out σ) (options : List (CallOption In Out σ))
    (w : World σ) : Option (Run In Out σ) × Option Err :=
  runFromChan ctx inCh (applyOptions call options) w

/-! ## run_from_chan_pool.go

The goroutines of a pool interleave at their channel operations.  Each of them is a program
counter, and a step moves one goroutine from one channel operation to the next.  A call of the
Call is one step of its worker: it sees the token and the world as they are when the step is
taken.  The caller that ranges over the returned channel is one of the goroutines. -/

/-- A channel made by `make(chan T, bufSize)`. -/
structure Chan (T : Type) where
  cap : Nat
  buf : List T
  closed : Bool

/-- The process the code runs in.  `make` does not return on a size that is negative or that
it cannot allocate (the panics "makeslice: len out of range" and "makechan: size out of range",
or the runtime giving up for lack of memory); `maxMake` is the largest size for which it does
return, for the slices of channels and the channel buffers of this package.  It depends on the
platform and on the memory that is free, so it is a parameter; it is at least 1 (a process can
allocate one channel) and at most 2^45, the bound of the runtime on a slice of pointers where
it is largest (8 bytes each, `maxAlloc` = 2^48 bytes on 64-bit platforms). -/
structure Runtime where
  maxMake : Nat
  one_le : 1 ≤ maxMake
  le_limit : maxMake ≤ 35184372088832

/-- `SpawnResChanPool`: `none` is `make` not returning, on a length that is negative or too
large for the slice, or, when the loop body runs at all, on such a buffer size. -/
def SpawnResChanPool (rt : Runtime) (T : Type) (poolSize : Int) (bufSize : Int) :
    Option (List (Chan T)) :=
  if poolSize < 0 ∨ (rt.maxMake : Int) < poolSize then none
  else if 0 < poolSize ∧ (bufSize < 0 ∨ (rt.maxMake : Int) < bufSize) then none
  else some (List.replicate poolSize.toNat { cap := bufSize.toNat, buf := [], closed := false })

/-- Where a `worker` goroutine of runWorkerPool stands. -/
inductive WorkerPC (In Out : Type) where
  /-- at `for in := range inCh` -/
  | recv
  /-- has received `x`; `call(ctx, in)` has not returned yet -/
  | calling (x : In)
  /-- at one of the three `resCh <- ...`; `stop` tells the one of the ErrMustStop branch -/
  | send (r : Result Out) (stop : Bool)
  /-- the send of the ErrMustStop branch is done; at `ctxCsl()` and `return` -/
  | cancel
  /-- returned; the deferred `close(resCh)` has run -/
  | exited
  deriving DecidableEq, Repr

/-- Where a forwarding goroutine of MergeChanPool stands. -/
inductive ForwarderPC (Out : Type) where
  /-- at `for out := range resCh` -/
  | recv
  /-- at `mergeCh <- out` -/
  | send (r : Result Out)
  /-- the loop has ended and `wg.Done()` has run -/
  | exited
  deriving DecidableEq, Repr

/-- Worker `i`, its unbuffered channel `resChanPool[i]` and the goroutine MergeChanPool starts
on that channel.  The channel has no state of its own: a value passes when the worker stands
at its send and the forwarder at its receive, and the channel is closed once the worker has
exited. -/
structure Lane (In Out : Type) where
  worker : WorkerPC In Out
  fwd : ForwarderPC Out
  deriving DecidableEq, Repr

/-- What is observed of the workers on the shared channels. -/
inductive Event (In Out : Type) where
  /-- worker `i` has received `x` from `inCh` -/
  | read (i : Nat) (x : In)
  /-- the send of `r` by worker `i` on its `resCh` has completed -/
  | emit (i : Nat) (r : Result Out)
  /-- worker `i` has called `ctxCsl()` -/
  | cancel (i : Nat)
  deriving DecidableEq, Repr

/-- The goroutines the scheduler can pick: worker `i`, the forwarder of channel `i`, the
goroutine that waits on the WaitGroup and closes `mergeCh`, and the caller, which ranges
over the returned channel. -/
inductive Action where
  | worker (i : Nat)
  | forwarder (i : Nat)
  | closer
  | reader
  deriving DecidableEq, Repr

/-- State of a worker pool in flight. -/
structure Pool (In Out σ : Type) where
  /-- items not yet received from `inCh` -/
  inCh : List In
  /-- whether `inCh` is closed after these items -/
  inClosed : Bool
  /-- the child token made by `context.WithCancel(ctx)` -/
  ctx : Context
  world : World σ
  lanes : List (Lane In Out)
  /-- counter of the WaitGroup -/
  wg : Nat
  /-- `cap(mergeCh)` -/
  mergeCap : Nat
  mergeBuf : List (Result Out)
  mergeClosed : Bool
  /-- what the caller has received from the returned channel, in order -/
  received : List (Result Out)
  /-- whether some goroutine has panicked -/
  panicked : Bool
  /-- the calls made so far: worker, input, returned pair -/
  calls : List (Nat × In × Out × Option Err)
  trace : List (Event In Out)

/-- The Result a worker sends for a returned pair, and whether it sends it in the
ErrMustStop branch (after which it cancels and returns). -/
def runWorkerPool.outcome {In Out : Type} [Inhabited Out] (res : Out) (err : Option Err) :
    WorkerPC In Out :=
  match err with
  | some e =>
    if e.Is ErrMustStop then WorkerPC.send (ErrorResult (some (Errorf ErrBusinessLogic e))) true
    else WorkerPC.send (ErrorResult (some (Errorf ErrBusinessLogic e))) false
  | none => WorkerPC.send (ValueResult res) false

/-- One step of the closure `worker` of runWorkerPool, for worker `i`; `none` when it is
blocked or has returned. -/
def runWorkerPool.worker {In Out σ : Type} [Inhabited Out] (call : CallFn In Out σ)
    (s : Pool In Out σ) (i : Nat) : Option (Pool In Out σ) :=
  match s.lanes[i]? with
  | none => none
  | some ln =>
    match ln.worker with
    | WorkerPC.recv =>
      match s.inCh with
      | x :: rest =>
        some { s with inCh := rest,
                      lanes := s.lanes.set i { ln with worker := WorkerPC.calling x },
                      trace := s.trace ++ [Event.read i x] }
      | [] =>
        if s.inClosed then
          some { s with lanes := s.lanes.set i { ln with worker := WorkerPC.exited } }
        else none
    | WorkerPC.calling x =>
      match call s.ctx x s.world with
      | none => some { s with panicked := true }
      | some ((res, err), w1) =>
        some { s with world := w1,
                      lanes := s.lanes.set i { ln with worker := runWorkerPool.outcome res err },
                      calls := s.calls ++ [(i, x, res, err)] }
    | WorkerPC.send _ _ => none
    | WorkerPC.cancel =>
      some { s with ctx := s.ctx.cancel s.world.now,
                    lanes := s.lanes.set i { ln with worker := WorkerPC.exited },
                    trace := s.trace ++ [Event.cancel i] }
    | WorkerPC.exited => none

/-- One step of the goroutine MergeChanPool starts on `resChanPool[i]`: receive from the
worker (which completes the worker's send), see the channel closed and call `wg.Done()`, or
send on `mergeCh`.  A send on a closed channel and a negative WaitGroup counter panic. -/
def MergeChanPool.forwarder {In Out σ : Type} (s : Pool In Out σ) (i : Nat) :
    Option (Pool In Out σ) :=
  match s.lanes[i]? with
  | none => none
  | some ln =>
    match ln.fwd with
    | ForwarderPC.recv =>
      match ln.worker with
      | WorkerPC.send r stop =>
        some { s with lanes := s.lanes.set i
                        { worker := if stop then WorkerPC.cancel else WorkerPC.recv,
                          fwd := ForwarderPC.send r },
                      trace := s.trace ++ [Event.emit i r] }
      | WorkerPC.exited =>
        if s.wg = 0 then some { s with panicked := true }
        else some { s with lanes := s.lanes.set i { ln with fwd := ForwarderPC.exited },
                           wg := s.wg - 1 }
      | _ => none
    | ForwarderPC.send r =>
      if s.mergeClosed then some { s with panicked := true }
      else if s.mergeBuf.length < s.mergeCap then
        some { s with mergeBuf := s.mergeBuf ++ [r],
                      lanes := s.lanes.set i { ln with fwd := ForwarderPC.recv } }
      else none
    | ForwarderPC.exited => none

/-- The goroutine `wg.Wait(); close(mergeCh)` of MergeChanPool. -/
def MergeChanPool.closer {In Out σ : Type} (s : Pool In Out σ) : Option (Pool In Out σ) :=
  if s.wg = 0 ∧ s.mergeClosed = false then some { s with mergeClosed := true } else none

/-- The caller receiving the next value of the returned channel. -/
def Pool.reader {In Out σ : Type} (s : Pool In Out σ) : Option (Pool In Out σ) :=
  match s.mergeBuf with
  | r :: rest => some { s with mergeBuf := rest, received := s.received ++ [r] }
  | [] => none

/-- One step of the goroutine the scheduler picks; `none` when that goroutine cannot move.
Nothing moves once a goroutine has panicked. -/
def Pool.step {In Out σ : Type} [Inhabited Out] (call : CallFn In Out σ)
    (s : Pool In Out σ) (a : Action) : Option (Pool In Out σ) :=
  if s.panicked then none
  else
    match a with
    | Action.worker i => runWorkerPool.worker call s i
    | Action.forwarder i => MergeChanPool.forwarder s i
    | Action.closer => MergeChanPool.closer s
    | Action.reader => Pool.reader s

/-- An execution: the goroutines move in the order of the schedule. -/
def Pool.run {In Out σ : Type} [Inhabited Out] (call : CallFn In Out σ) :
    Pool In Out σ → List Action → Option (Pool In Out σ)
  | s, [] => some s
  | s, a :: rest =>
    match Pool.step call s a with
    | none => none
    | some s1 => Pool.run call s1 rest

/-- The pool as runWorkerPool leaves it when it returns: every goroutine at its start,
`wg.Add(len(resChanPool))` done, `mergeCh` empty with capacity `len(resChanPool)`. -/
def MergeChanPool {In Out σ : Type} (ctx : Context) (inCh : InChan In) (w : World σ)
    (resChanPool : List (Chan (Result Out))) : Pool In Out σ :=
  { inCh := inCh.items, inClosed := inCh.closed, ctx := ctx, world := w,
    lanes := resChanPool.map (fun _ => { worker := WorkerPC.recv, fwd := ForwarderPC.recv }),
    wg := resChanPool.length, mergeCap := resChanPool.length, mergeBuf := [],
    mergeClosed := false, received := [], panicked := false, calls := [], trace := [] }

/-- The stream runWorkerPool returns, as the goroutines that feed it: the Call the closure
`worker` has captured, and the pool as it stands when runWorkerPool returns. -/
structure PoolStream (In Out σ : Type) where
  call : CallFn In Out σ
  pool : Pool In Out σ

/-- An execution of the goroutines behind the stream: the workers call the captured Call. -/
def PoolStream.run {In Out σ : Type} [Inhabited Out] (ps : PoolStream In Out σ)
    (sched : List Action) : Option (Pool In Out σ) :=
  Pool.run ps.call ps.pool sched

/-- The outer `none` is runWorkerPool not returning (`make` in SpawnResChanPool); otherwise the
returned pair is (stream, error).  The `make` of MergeChanPool is given the length of the slice
SpawnResChanPool has returned. -/
def runWorkerPool {In Out σ : Type} [Inhabited Out] (rt : Runtime) (ctx : Option Context)
    (inCh : Option (InChan In)) (call : Call In Out σ) (poolSize : Int) (w : World σ) :
    Option (Option (PoolStream In Out σ) × Option Err) :=
  match validateRunFromChanInputs ctx inCh call with
  | some err => some (none, some err)
  | none =>
    match ctx, inCh, call with
    | some c, some ch, some f =>
      let ctx1 := WithCancel c w.now
      match SpawnResChanPool rt (Result Out) poolSize 0 with
      | none => none
      | some resChanPool =>
        some (some { call := f, pool := MergeChanPool ctx1 ch w resChanPool }, none)
    | _, _, _ => some (none, none)

def RunWorkerPool {In Out σ : Type} [Inhabited Out] (rt : Runtime) (ctx : Option Context)
    (inCh : Option (InChan In)) (call : Call In Out σ) (poolSize : Int)
    (options : List (CallOption In Out σ)) (w : World σ) :
    Option (Option (PoolStream In Out σ) × Option Err) :=
  runWorkerPool rt ctx inCh (applyOptions call options) poolSize w

/-! ## MergeChanPool on any pool of channels

The same goroutines as in the worker pool, on channels whose producers are not known: a
producer may at any moment send on a source channel that is not closed, or close it.  The
channels of the pool are distinct and not nil; a nil channel behaves as an open channel on
which no producer ever acts. -/

/-- Where a forwarding goroutine of MergeChanPool stands, for any payload. -/
inductive MergePC (T : Type) where
  /-- at `for out := range resCh` -/
  | recv
  /-- at `mergeCh <- out` -/
  | send (v : T)
  /-- the loop has ended and `wg.Done()` has run -/
  | exited
  deriving DecidableEq, Repr

/-- A source channel with the goroutine MergeChanPool starts on it: the values the channel has
taken from its producers and not yet handed to the forwarder, in order (its buffer, then its
waiting senders), and whether it is closed. -/
structure Source (T : Type) where
  queue : List T
  closed : Bool
  fwd : MergePC T
  deriving DecidableEq, Repr

/-- What the scheduler can pick: a producer sending `v` on source `i`, a producer closing
source `i`, the forwarder of source `i`, the goroutine `wg.Wait(); close(mergeCh)`, and the
reader of the merged channel. -/
inductive MergeAction (T : Type) where
  | send (i : Nat) (v : T)
  | close (i : Nat)
  | forwarder (i : Nat)
  | closer
  | reader
  deriving DecidableEq, Repr

/-- State of a merge in flight. -/
structure Merger (T : Type) where
  sources : List (Source T)
  /-- counter of the WaitGroup -/
  wg : Nat
  /-- `cap(mergeCh)` -/
  mergeCap : Nat
  mergeBuf : List T
  mergeClosed : Bool
  /-- what has been received from the merged channel, in order -/
  received : List T
  /-- whether some goroutine of the merge has panicked -/
  panicked : Bool
  /-- every value put on a source so far, those the channels held at the start included -/
  sent : List T

/-- A producer sends on source `i`.  Producers do not send on a closed channel. -/
def Merger.produce {T : Type} (s : Merger T) (i : Nat) (v : T) : Option (Merger T) :=
  match s.sources[i]? with
  | none => none
  | some src =>
    if src.closed then none
    else some { s with sources := s.sources.set i { src with queue := src.queue ++ [v] },
                       sent := s.sent ++ [v] }

/-- A producer closes source `i`.  Producers do not close a channel twice. -/
def Merger.closeSource {T : Type} (s : Merger T) (i : Nat) : Option (Merger T) :=
  match s.sources[i]? with
  | none => none
  | some src =>
    if src.closed then none
    else some { s with sources := s.sources.set i { src with closed := true } }

/-- One step of the goroutine MergeChanPool starts on source `i`: receive the next value, see
the channel closed and drained and call `wg.Done()`, or send on `mergeCh`.  A send on a closed
channel and a negative WaitGroup counter panic. -/
def Merger.forwarder {T : Type} (s : Merger T) (i : Nat) : Option (Merger T) :=
  match s.sources[i]? with
  | none => none
  | some src =>
    match src.fwd with
    | MergePC.recv =>
      match src.queue with
      | v :: rest =>
        some { s with sources := s.sources.set i { src with queue := rest, fwd := MergePC.send v } }
      | [] =>
        if src.closed then
          if s.wg = 0 then some { s with panicked := true }
          else some { s with sources := s.sources.set i { src with fwd := MergePC.exited },
                             wg := s.wg - 1 }
        else none
    | MergePC.send v =>
      if s.mergeClosed then some { s with panicked := true }
      else if s.mergeBuf.length < s.mergeCap then
        some { s with mergeBuf := s.mergeBuf ++ [v],
                      sources := s.sources.set i { src with fwd := MergePC.recv } }
      else none
    | MergePC.exited => none

/-- The goroutine `wg.Wait(); close(mergeCh)`. -/
def Merger.closer {T : Type} (s : Merger T) : Option (Merger T) :=
  if s.wg = 0 ∧ s.mergeClosed = false then some { s with mergeClosed := true } else none

/-- The reader of the merged channel receiving its next value. -/
def Merger.reader {T : Type} (s : Merger T) : Option (Merger T) :=
  match s.mergeBuf with
  | v :: rest => some { s with mergeBuf := rest, received := s.received ++ [v] }
  | [] => none

/-- One step of what the scheduler picks; `none` when it cannot move.  Nothing moves once a
goroutine has panicked. -/
def Merger.step {T : Type} (s : Merger T) (a : MergeAction T) : Option (Merger T) :=
  if s.panicked then none
  else
    match a with
    | MergeAction.send i v => Merger.produce s i v
    | MergeAction.close i => Merger.closeSource s i
    | MergeAction.forwarder i => Merger.forwarder s i
    | MergeAction.closer => Merger.closer s
    | MergeAction.reader => Merger.reader s

def Merger.run {T : Type} : Merger T → List (MergeAction T) → Option (Merger T)
  | s, [] => some s
  | s, a :: rest =>
    match Merger.step s a with
    | none => none
    | some s1 => Merger.run s1 rest

/-- The merge as `MergeChanPool(resChanPool)` leaves it when it returns: a forwarder at its
start on every channel, `wg.Add(len(resChanPool))` done, `mergeCh` empty with capacity
`len(resChanPool)`. -/
def Merger.start {T : Type} (resChanPool : List (Chan T)) : Merger T :=
  { sources := resChanPool.map
      (fun c => { queue := c.buf, closed := c.closed, fwd := MergePC.recv }),
    wg := resChanPool.length, mergeCap := resChanPool.length, mergeBuf := [],
    mergeClosed := false, received := [], panicked := false,
    sent := resChanPool.foldr (fun c acc => c.buf ++ acc) [] }

/-- Whether the action is the close of the merged channel. -/
def MergeAction.isCloser {T : Type} : MergeAction T → Bool
  | MergeAction.closer => true
  | _ => false

/-- Whether the action is a send of a producer. -/
def MergeAction.isSend {T : Type} : MergeAction T → Bool
  | MergeAction.send _ _ => true
  | _ => false

/-- The values a source holds: those in its queue and the one its forwarder is sending. -/
def Source.held {T : Type} (src : Source T) : Multiset T :=
  (src.queue : Multiset T)
  + (match src.fwd with
    | MergePC.send v => {v}
    | _ => 0)

/-- Whether the forwarder of the source has still to call `wg.Done()`. -/
def Source.pending {T : Type} (src : Source T) : Nat :=
  match src.fwd with
  | MergePC.exited => 0
  | _ => 1

/-- A bound on the steps that the forwarder and the producers closing can still take on a
source. -/
def Source.weight {T : Type} (src : Source T) : Nat :=
  3 * src.queue.length
  + (match src.fwd with
    | MergePC.recv => 1
    | MergePC.send _ => 3
    | MergePC.exited => 0)
  + (if src.closed then 0 else 1)

/-- A bound on the steps a merge can still take when no producer sends. -/
def Merger.measure {T : Type} (s : Merger T) : Nat :=
  (s.sources.map Source.weight).sum + s.mergeBuf.length
    + (if s.mergeClosed then 0 else 1) + (if s.panicked then 0 else 1)

/-- What holds of every state a merge reaches from its start. -/
structure Merger.Inv {T : Type} (s : Merger T) : Prop where
  cap : s.mergeCap = s.sources.length
  noPanic : s.panicked = false
  wgCount : s.wg = (s.sources.map Source.pending).sum
  closedWg : s.mergeClosed = true → s.wg = 0
  fwdExit : ∀ (i : Nat) (src : Source T), s.sources[i]? = some src →
    src.fwd = MergePC.exited → src.closed = true ∧ src.queue = []
  conserve : (s.received : Multiset T) + (s.mergeBuf : Multiset T)
      + (s.sources.map Source.held).sum = (s.sent : Multiset T)

/-! ## synchronization.go -/

/-- `CheckContext`: the select takes the case of `ctx.Done()` when that channel is closed and
its default case otherwise, so it does not wait.  `errors.Is(ctx.Err(), context.DeadlineExceeded)`
is the comparison of `ctx.Err()` with that value.  The outer `none` is the panic of a method
call on a nil interface. -/
def CheckContext (ctx : Option Context) (now : Int) : Option (Option Err) :=
  match ctx with
  | none => none
  | some c =>
    if c.Done now then
      if c.Err now = some CtxErr.DeadlineExceeded then some (some ErrCtxDeadline)
      else some (some ErrCtxCancel)
    else some none

/-! ## setup_test.go -/

/-- A Call that returns on every invocation. -/
def Call.ofFn {In Out σ : Type}
    (f : Context → In → World σ → (Out × Option Err) × World σ) : Call In Out σ :=
  some (fun ctx x w => some (f ctx x w))

/-- The Result a streaming or pool worker emits for a returned pair: the value Result of the
output when the error is nil, else the error wrapped under ErrBusinessLogic. -/
def resultOf {Out : Type} [Inhabited Out] (p : Out × Option Err) : Result Out :=
  match p.2 with
  | none => ValueResult p.1
  | some e => ErrorResult (some (Errorf ErrBusinessLogic e))

/-! ## Bookkeeping for the pool -/

/-- The Results a lane holds: the one its worker is sending, the one its forwarder is
sending. -/
def Lane.heldResults {In Out : Type} (ln : Lane In Out) : Multiset (Result Out) :=
  (match ln.worker with
    | WorkerPC.send r _ => {r}
    | _ => 0)
  + (match ln.fwd with
    | ForwarderPC.send r => {r}
    | _ => 0)

/-- The input a lane holds: the one its worker has received and not yet called the Call on. -/
def Lane.heldInputs {In Out : Type} (ln : Lane In Out) : Multiset In :=
  match ln.worker with
  | WorkerPC.calling x => {x}
  | _ => 0

/-- Whether the forwarder of the lane has still to call `wg.Done()`. -/
def Lane.pending {In Out : Type} (ln : Lane In Out) : Nat :=
  match ln.fwd with
  | ForwarderPC.exited => 0
  | _ => 1

/-- A bound on the steps the two goroutines of a lane can still take on what they hold. -/
def Lane.weight {In Out : Type} (ln : Lane In Out) : Nat :=
  (match ln.worker with
    | WorkerPC.recv => 1
    | WorkerPC.calling _ => 5
    | WorkerPC.send _ _ => 4
    | WorkerPC.cancel => 1
    | WorkerPC.exited => 0)
  + (match ln.fwd with
    | ForwarderPC.recv => 1
    | ForwarderPC.send _ => 3
    | ForwarderPC.exited => 0)

/-- A bound on the steps a pool can still take. -/
def Pool.measure {In Out σ : Type} (s : Pool In Out σ) : Nat :=
  5 * s.inCh.length + (s.lanes.map Lane.weight).sum + s.mergeBuf.length
    + (if s.mergeClosed then 0 else 1) + (if s.panicked then 0 else 1)

/-- What holds of every state a pool reaches from its start on the input channel `ch`, with a
Call `f` that returns. -/
structure Pool.Inv {In Out σ : Type} [Inhabited Out]
    (f : Context → In → World σ → (Out × Option Err) × World σ) (ch : InChan In)
    (s : Pool In Out σ) : Prop where
  cap : s.mergeCap = s.lanes.length
  closedIn : s.inClosed = ch.closed
  noPanic : s.panicked = false
  fwdExit : ∀ (i : Nat) (ln : Lane In Out), s.lanes[i]? = some ln →
    ln.fwd = ForwarderPC.exited → ln.worker = WorkerPC.exited
  wgCount : s.wg = (s.lanes.map Lane.pending).sum
  closedWg : s.mergeClosed = true → s.wg = 0
  results : (s.received : Multiset (Result Out)) + (s.mergeBuf : Multiset (Result Out))
      + (s.lanes.map Lane.heldResults).sum
    = ((s.calls.map (fun c => resultOf c.2.2) : List (Result Out)) : Multiset (Result Out))
  inputs : ((s.calls.map (fun c => c.2.1) : List In) : Multiset In)
      + (s.lanes.map Lane.heldInputs).sum + (s.inCh : Multiset In)
    = (ch.items : Multiset In)
  returned : ∀ c ∈ s.calls, ∃ (cx : Context) (v : World σ), (f cx c.2.1 v).1 = c.2.2
  flag : ∀ (i : Nat) (ln : Lane In Out) (r : Result Out) (stop : Bool),
    s.lanes[i]? = some ln → ln.worker = WorkerPC.send r stop →
    stop = errorsIs r.err ErrMustStop
  stopped : ∀ (i : Nat) (ln : Lane In Out) (r : Result Out), s.lanes[i]? = some ln →
    Event.emit i r ∈ s.trace → errorsIs r.err ErrMustStop = true →
    ln.worker = WorkerPC.cancel ∨ (ln.worker = WorkerPC.exited ∧ Event.cancel i ∈ s.trace)
  order : ∀ (j k i : Nat) (r : Result Out) (x : In), j < k →
    s.trace[j]? = some (Event.emit i r) → errorsIs r.err ErrMustStop = true →
    s.trace[k]? ≠ some (Event.read i x)
  cancelled : ∀ i : Nat, Event.cancel i ∈ s.trace → s.ctx.cause.isSome = true
  noStop : (∀ (c : Context) (x : In) (v : World σ), errorsIs (f c x v).1.2 ErrMustStop = false) →
    ∀ (i : Nat) (ln : Lane In Out), s.lanes[i]? = some ln →
      ln.worker ≠ WorkerPC.cancel ∧ (∀ r : Result Out, ln.worker ≠ WorkerPC.send r true)
      ∧ (ln.worker = WorkerPC.exited → s.inCh = [])

/-- A Call on numbers that returns its input, and a plain error on odd inputs. -/
def sampleCall : Context → Nat → World Unit → (Nat × Option Err) × World Unit :=
  fun _ x w => if x % 2 = 0 then ((x, none), w) else ((0, some (Err.new 7)), w)

def sampleWorld : World Unit := { now := 0, st := () }

/-- A 64-bit process with all the memory it can address: `make` refuses a slice of more than
2^45 channels. -/
def sampleRuntime : Runtime :=
  { maxMake := 35184372088832, one_le := by decide, le_limit := by decide }

def sampleChan : InChan Nat := { cap := 0, items := [1, 2], closed := true }

/-- A Call on numbers that returns the output 5 together with an error. -/
def sampleBothCall : Context → Nat → World Unit → (Nat × Option Err) × World Unit :=
  fun _ _ w => ((5, some (Err.new 7)), w)

/-- Two source channels: one of capacity 1 that holds the value 7 and is open, one that is
closed and empty. -/
def samplePool : List (Chan Nat) :=
  [{ cap := 1, buf := [7], closed := false }, { cap := 0, buf := [], closed := true }]

/-- A schedule on the sample pool: a producer sends 8 on the first channel and later closes
it, the forwarders pass 7 and 8 on, and the merged channel is closed and read to its end. -/
def sampleMergeSchedule : List (MergeAction Nat) :=
  [MergeAction.send 0 8, MergeAction.forwarder 0, MergeAction.forwarder 1,
   MergeAction.forwarder 0, MergeAction.reader, MergeAction.forwarder 0, MergeAction.close 0,
   MergeAction.forwarder 0, MergeAction.forwarder 0, MergeAction.closer, MergeAction.reader]

/-- A schedule that runs a pool of two workers on two items to the end. -/
def sampleSchedule : List Action :=
  [Action.worker 0, Action.worker 1, Action.worker 1, Action.worker 0, Action.forwarder 1,
   Action.forwarder 0, Action.forwarder 1, Action.forwarder 0, Action.reader, Action.reader,
   Action.worker 0, Action.worker 1, Action.forwarder 0, Action.forwarder 1, Action.closer]

theorem Err.Is_self (e : Err) : e.Is e = true := by
  cases e <;> simp [Err.Is]

theorem Err.Is_Errorf_left (a b : Err) : (Errorf a b).Is a = true := by
  simp [Errorf, Err.Is, Err.Is_self]

theorem Err.Is_Errorf_right (a b : Err) : (Errorf a b).Is b = true := by
  simp [Errorf, Err.Is, Err.Is_self]

theorem Err.Is_Errorf_new (a b : Err) (i : Nat) :
    (Errorf a b).Is (Err.new i) = (a.Is (Err.new i) || b.Is (Err.new i)) := by
  simp [Errorf, Err.Is]

theorem Err.Is_businessLogic_mustStop (e : Err) :
    (Errorf ErrBusinessLogic e).Is ErrMustStop = e.Is ErrMustStop := by
  simp [ErrBusinessLogic, ErrMustStop, Errorf, Err.Is]

/-! ## The streaming runner -/

section Streaming

variable {In Out σ : Type} [Inhabited Out]

theorem runFromChan_valid (ctx : Context) (ch : InChan In) (g : CallFn In Out σ) (w : World σ) :
    runFromChan (some ctx) (some ch) (some g) w
      = (some (runFromChan.goroutine ctx g ch.closed ch.items w), none) := by
  simp [runFromChan, validateRunFromChanInputs]

end Streaming

/-! ## The single-shot runner -/

section SingleShot

variable {In Out σ : Type} [Inhabited Out]

/-- C3: for a non-nil token, an input and a Call that returns, the single-shot runner returns
a stream and no error; the stream yields exactly one Result and is closed; the Result is the
value Result of the output when the Call returned a nil error, and for a returned error e,
also one under ErrMustStop, the error Result of e wrapped under ErrBusinessLogic, which matches
ErrBusinessLogic and e (and ErrMustStop when e does). -/
theorem C3_runFromInput_single_result (ctx : Context) (x : In)
    (f : Context → In → World σ → (Out × Option Err) × World σ) (w : World σ) :
    ∃ run : Run In Out σ,
      runFromInput (some ctx) x (Call.ofFn f) w = (some run, none)
      ∧ run.emitted.length = 1
      ∧ run.closed = true
      ∧ run.panicked = false
      ∧ run.invoked = [x]
      ∧ run.world = (f ctx x w).2
      ∧ (∀ out : Out, (f ctx x w).1 = (out, none) → run.emitted = [ValueResult out])
      ∧ (∀ (out : Out) (e : Err), (f ctx x w).1 = (out, some e) →
          run.emitted = [ErrorResult (some (Errorf ErrBusinessLogic e))]
          ∧ errorsIs (some (Errorf ErrBusinessLogic e)) ErrBusinessLogic = true
          ∧ errorsIs (some (Errorf ErrBusinessLogic e)) e = true
          ∧ errorsIs (some (Errorf ErrBusinessLogic e)) ErrMustStop
              = errorsIs (some e) ErrMustStop) := by
  refine ⟨runFromInput.goroutine ctx x (fun c y v => some (f c y v)) w, ?_, ?_⟩
  · simp [runFromInput, validateRunFromInputInputs, Call.ofFn]
  · rcases hfx : f ctx x w with ⟨⟨res, err⟩, w1⟩
    cases err with
    | none => simp [runFromInput.goroutine, hfx]
    | some e1 =>
      simp [runFromInput.goroutine, hfx, errorsIs, Err.Is_Errorf_left, Err.Is_Errorf_right,
        Err.Is_businessLogic_mustStop]

end SingleShot

/-! ## Validation -/

section Validation

variable {In Out σ : Type} [Inhabited Out]

/-- C6: with a nil Call and one decorator, each of the three runners returns a stream and a
nil error instead of a nil stream and ErrNilCallFunc: the decorator has wrapped the nil Call
into a non-nil closure before the validation reads it, and the goroutine that is started
panics on its first call.  With no decorator, the same nil Call is refused. -/
theorem C6_nil_call_under_option_passes_validation :
    (∃ run : Run Nat Nat Unit,
        RunFromInput (some Background) 1 none [NewFailFastOptionOption 1] sampleWorld
          = (some run, none) ∧ run.panicked = true)
    ∧ (∃ run : Run Nat Nat Unit,
        RunFromChan (some Background) (some sampleChan) none [NewTimeoutOption 5] sampleWorld
          = (some run, none) ∧ run.panicked = true)
    ∧ (∃ (ps : PoolStream Nat Nat Unit) (s : Pool Nat Nat Unit),
        RunWorkerPool sampleRuntime (some Background) (some sampleChan) none 1
          [NewFailFastOptionOption 1] sampleWorld = some (some ps, none)
        ∧ ps.call = invoke (applyOptions none [NewFailFastOptionOption 1])
        ∧ ps.run [Action.worker 0, Action.worker 0] = some s
        ∧ s.panicked = true)
    ∧ RunFromInput (some Background) 1 (none : Call Nat Nat Unit) [] sampleWorld
        = (none, some ErrNilCallFunc)
    ∧ RunFromChan (some Background) (some sampleChan) (none : Call Nat Nat Unit) [] sampleWorld
        = (none, some ErrNilCallFunc)
    ∧ RunWorkerPool sampleRuntime (some Background) (some sampleChan) (none : Call Nat Nat Unit)
        1 [] sampleWorld = some (none, some ErrNilCallFunc) := by
  refine ⟨⟨_, rfl, rfl⟩, ⟨_, rfl, rfl⟩, ⟨_, _, rfl, rfl, rfl, rfl⟩, rfl, rfl, rfl⟩

theorem spawn_in_range (rt : Runtime) (T : Type) (poolSize : Int) (h0 : 0 ≤ poolSize)
    (hmax : poolSize ≤ rt.maxMake) :
    SpawnResChanPool rt T poolSize 0
      = some (List.replicate poolSize.toNat { cap := 0, buf := [], closed := false }) := by
  unfold SpawnResChanPool
  rw [if_neg (by omega), if_neg (by omega)]
  rfl

end Validation

/-! ## Decorators -/

section Decorators

variable {In Out σ : Type} [Inhabited Out]

/-- C8: whatever the mistakes limit, the Call wrapped by the fail-fast decorator returns
(out, nil), and the world the inner Call left, when the inner Call returns (out, nil); when
the inner Call returns a non-nil error e, it returns the zero Output and e wrapped under
ErrMustStop, an error that matches ErrMustStop and e; it panics when the inner Call does.  The
wrapped Call is the same for any two limits. -/
theorem C8_failFast_escalates_every_error (limit limit2 : Int) (next : Call In Out σ)
    (ctx : Context) (x : In) (w : World σ) :
    (∀ (out : Out) (w1 : World σ), invoke next ctx x w = some ((out, none), w1) →
        invoke (failFastOption.WithOption { mistakesLimit := limit } next) ctx x w
          = some ((out, none), w1))
    ∧ (∀ (out : Out) (e : Err) (w1 : World σ), invoke next ctx x w = some ((out, some e), w1) →
        invoke (failFastOption.WithOption { mistakesLimit := limit } next) ctx x w
          = some ((default, some (Errorf ErrMustStop e)), w1)
        ∧ errorsIs (some (Errorf ErrMustStop e)) ErrMustStop = true
        ∧ errorsIs (some (Errorf ErrMustStop e)) e = true)
    ∧ (invoke next ctx x w = none →
        invoke (failFastOption.WithOption { mistakesLimit := limit } next) ctx x w = none)
    ∧ failFastOption.WithOption { mistakesLimit := limit } next
        = failFastOption.WithOption { mistakesLimit := limit2 } next
    ∧ (NewFailFastOptionOption limit : CallOption In Out σ).WithOption next
        = (NewFailFastOptionOption limit2 : CallOption In Out σ).WithOption next := by
  refine ⟨?_, ?_, ?_, rfl, rfl⟩
  · intro out w1 h
    cases next <;> simp_all [failFastOption.WithOption, invoke]
  · intro out e w1 h
    cases next <;>
      simp_all [failFastOption.WithOption, invoke, errorsIs, Err.Is_Errorf_left,
        Err.Is_Errorf_right]
  · intro h
    cases next <;> simp_all [failFastOption.WithOption, invoke]

end Decorators

section Timeout

variable {In Out σ : Type}

end Timeout

/-! ## The worker pool -/

section PoolFacts

theorem sum_map_getElem? {α M : Type} [AddCommMonoid M] (g : α → M) :
    ∀ (l : List α) (i : Nat) (a : α), l[i]? = some a →
      (l.map g).sum = g a + ((l.eraseIdx i).map g).sum := by
  intro l
  induction l with
  | nil => intro i a h; simp at h
  | cons b rest ih =>
    intro i a h
    cases i with
    | zero =>
      simp only [List.getElem?_cons_zero, Option.some.injEq] at h
      subst h
      simp
    | succ n =>
      simp only [List.getElem?_cons_succ] at h
      simp only [List.map_cons, List.sum_cons, List.eraseIdx_cons_succ, ih n a h]
      exact add_left_comm _ _ _

theorem sum_map_set {α M : Type} [AddCommMonoid M] (g : α → M) :
    ∀ (l : List α) (i : Nat) (a b : α), l[i]? = some a →
      ((l.set i b).map g).sum = g b + ((l.eraseIdx i).map g).sum := by
  intro l
  induction l with
  | nil => intro i a b h; simp at h
  | cons c rest ih =>
    intro i a b h
    cases i with
    | zero => simp
    | succ n =>
      simp only [List.getElem?_cons_succ] at h
      simp only [List.set_cons_succ, List.map_cons, List.sum_cons, List.eraseIdx_cons_succ,
        ih n a b h]
      exact add_left_comm _ _ _

theorem getElem?_set_cases {α : Type} {l : List α} {i j : Nat} {a b : α}
    (h : (l.set j b)[i]? = some a) : (i = j ∧ a = b) ∨ (i ≠ j ∧ l[i]? = some a) := by
  rw [List.getElem?_set] at h
  by_cases hij : j = i
  · subst hij
    left
    by_cases hlt : j < l.length
    · simp [hlt] at h
      exact ⟨rfl, h.symm⟩
    · simp [hlt] at h
  · right
    rw [if_neg hij] at h
    exact ⟨fun e => hij e.symm, h⟩

theorem getElem?_snoc_cases {α : Type} {l : List α} {a b : α} {k : Nat}
    (h : (l ++ [a])[k]? = some b) : (k < l.length ∧ l[k]? = some b) ∨ (k = l.length ∧ b = a) := by
  by_cases hlt : k < l.length
  · rw [List.getElem?_append_left hlt] at h
    exact Or.inl ⟨hlt, h⟩
  · rw [List.getElem?_append_right (by omega)] at h
    by_cases h0 : k - l.length = 0
    · rw [h0] at h
      simp only [List.getElem?_cons_zero, Option.some.injEq] at h
      exact Or.inr ⟨by omega, h.symm⟩
    · rw [List.getElem?_eq_none (by simp; omega)] at h
      simp at h

theorem order_snoc {In Out : Type} (tr : List (Event In Out)) (ev : Event In Out)
    (horder : ∀ (j k i : Nat) (r : Result Out) (x : In), j < k →
      tr[j]? = some (Event.emit i r) → errorsIs r.err ErrMustStop = true →
      tr[k]? ≠ some (Event.read i x))
    (hnew : ∀ (i : Nat) (x : In), ev = Event.read i x → ∀ r : Result Out,
      Event.emit i r ∈ tr → errorsIs r.err ErrMustStop = true → False) :
    ∀ (j k i : Nat) (r : Result Out) (x : In), j < k →
      (tr ++ [ev])[j]? = some (Event.emit i r) → errorsIs r.err ErrMustStop = true →
      (tr ++ [ev])[k]? ≠ some (Event.read i x) := by
  intro j k i r x hjk hj hstop hk
  rcases getElem?_snoc_cases hk with ⟨hklt, hk1⟩ | ⟨hkeq, hk1⟩
  · rcases getElem?_snoc_cases hj with ⟨_, hj1⟩ | ⟨hjeq, _⟩
    · exact horder j k i r x hjk hj1 hstop hk1
    · omega
  · rcases getElem?_snoc_cases hj with ⟨_, hj1⟩ | ⟨hjeq, _⟩
    · exact hnew i x hk1.symm r (List.mem_iff_getElem?.mpr ⟨j, hj1⟩) hstop
    · omega

theorem exited_sums {In Out : Type} (lanes : List (Lane In Out))
    (hall : ∀ (i : Nat) (ln : Lane In Out), lanes[i]? = some ln →
      ln.fwd = ForwarderPC.exited ∧ ln.worker = WorkerPC.exited) :
    (lanes.map Lane.heldResults).sum = 0 ∧ (lanes.map Lane.heldInputs).sum = 0
      ∧ (lanes.map Lane.pending).sum = 0 := by
  refine ⟨List.sum_eq_zero ?_, List.sum_eq_zero ?_, List.sum_eq_zero ?_⟩
  · intro m hm
    obtain ⟨ln, hln, rfl⟩ := List.mem_map.mp hm
    obtain ⟨i, hi⟩ := List.getElem?_of_mem hln
    obtain ⟨h1, h2⟩ := hall i ln hi
    simp [Lane.heldResults, h1, h2]
  · intro m hm
    obtain ⟨ln, hln, rfl⟩ := List.mem_map.mp hm
    obtain ⟨i, hi⟩ := List.getElem?_of_mem hln
    obtain ⟨h1, h2⟩ := hall i ln hi
    simp [Lane.heldInputs, h2]
  · intro m hm
    obtain ⟨ln, hln, rfl⟩ := List.mem_map.mp hm
    obtain ⟨i, hi⟩ := List.getElem?_of_mem hln
    obtain ⟨h1, h2⟩ := hall i ln hi
    simp [Lane.pending, h1]

theorem measure_init {In Out σ : Type} (ctx : Context) (ch : InChan In) (w : World σ)
    (pl : List (Chan (Result Out))) :
    (MergeChanPool ctx ch w pl : Pool In Out σ).measure = 5 * ch.items.length + 2 * pl.length + 2 := by
  have hsum : ∀ l : List (Chan (Result Out)),
      ((l.map (fun _ => ({ worker := WorkerPC.recv, fwd := ForwarderPC.recv } : Lane In Out))).map
        Lane.weight).sum = 2 * l.length := by
    intro l
    induction l with
    | nil => simp
    | cons c rest ih =>
      simp only [List.map_cons, List.sum_cons, ih, Lane.weight, List.length_cons]
      omega
  simp only [Pool.measure, MergeChanPool, hsum]
  simp

section PoolInvariant

variable {In Out σ : Type} [Inhabited Out]

theorem inv_worker_read (f : Context → In → World σ → (Out × Option Err) × World σ)
    (ch : InChan In) (s : Pool In Out σ) (i : Nat) (fw : ForwarderPC Out) (x : In)
    (rest : List In) (hinv : Pool.Inv f ch s)
    (hl : s.lanes[i]? = some { worker := WorkerPC.recv, fwd := fw })
    (hin : s.inCh = x :: rest) :
    Pool.Inv f ch { s with inCh := rest,
                           lanes := s.lanes.set i { worker := WorkerPC.calling x, fwd := fw },
                           trace := s.trace ++ [Event.read i x] } := by
  refine { cap := ?_, closedIn := ?_, noPanic := ?_, fwdExit := ?_, wgCount := ?_,
           closedWg := ?_, results := ?_, inputs := ?_, returned := ?_, flag := ?_,
           stopped := ?_, order := ?_, cancelled := ?_, noStop := ?_ }
  · simpa using hinv.cap
  · exact hinv.closedIn
  · exact hinv.noPanic
  · intro j ln hj hf
    rcases getElem?_set_cases hj with ⟨rfl, rfl⟩ | ⟨_, hj1⟩
    · have := hinv.fwdExit j _ hl hf
      simp at this
    · exact hinv.fwdExit j ln hj1 hf
  · have h1 := hinv.wgCount
    rw [sum_map_getElem? Lane.pending _ i _ hl] at h1
    simp only [sum_map_set Lane.pending _ i _ _ hl]
    simpa [Lane.pending] using h1
  · exact hinv.closedWg
  · have h1 := hinv.results
    rw [sum_map_getElem? Lane.heldResults _ i _ hl] at h1
    simp only [sum_map_set Lane.heldResults _ i _ _ hl]
    simpa [Lane.heldResults] using h1
  · have h1 := hinv.inputs
    rw [sum_map_getElem? Lane.heldInputs _ i _ hl, hin] at h1
    simp only [sum_map_set Lane.heldInputs _ i _ _ hl]
    rw [← h1]
    simp only [Lane.heldInputs, ← Multiset.cons_coe, ← Multiset.singleton_add]
    abel
  · exact hinv.returned
  · intro j ln r stop hj hw
    rcases getElem?_set_cases hj with ⟨rfl, rfl⟩ | ⟨_, hj1⟩
    · simp at hw
    · exact hinv.flag j ln r stop hj1 hw
  · intro j ln r hj hmem hstop
    have hmem1 : Event.emit j r ∈ s.trace := by simpa using hmem
    rcases getElem?_set_cases hj with ⟨rfl, rfl⟩ | ⟨_, hj1⟩
    · have := hinv.stopped j _ r hl hmem1 hstop
      simp at this
    · rcases hinv.stopped j ln r hj1 hmem1 hstop with h | ⟨h, hc⟩
      · exact Or.inl h
      · exact Or.inr ⟨h, by simp [hc]⟩
  · refine order_snoc s.trace _ hinv.order ?_
    intro i1 y hev r hmem hstop
    simp only [Event.read.injEq] at hev
    obtain ⟨rfl, _⟩ := hev
    have := hinv.stopped i _ r hl hmem hstop
    simp at this
  · intro j hmem
    exact hinv.cancelled j (by simpa using hmem)
  · intro hns j ln hj
    rcases getElem?_set_cases hj with ⟨rfl, rfl⟩ | ⟨_, hj1⟩
    · simp
    · obtain ⟨h1, h2, h3⟩ := hinv.noStop hns j ln hj1
      refine ⟨h1, h2, ?_⟩
      intro hex
      have := h3 hex
      rw [hin] at this
      simp at this

theorem inv_worker_eof (f : Context → In → World σ → (Out × Option Err) × World σ)
    (ch : InChan In) (s : Pool In Out σ) (i : Nat) (fw : ForwarderPC Out)
    (hinv : Pool.Inv f ch s)
    (hl : s.lanes[i]? = some { worker := WorkerPC.recv, fwd := fw })
    (hin : s.inCh = []) :
    Pool.Inv f ch { s with lanes := s.lanes.set i { worker := WorkerPC.exited, fwd := fw } } := by
  refine { cap := ?_, closedIn := ?_, noPanic := ?_, fwdExit := ?_, wgCount := ?_,
           closedWg := ?_, results := ?_, inputs := ?_, returned := ?_, flag := ?_,
           stopped := ?_, order := ?_, cancelled := ?_, noStop := ?_ }
  · simpa using hinv.cap
  · exact hinv.closedIn
  · exact hinv.noPanic
  · intro j ln hj hf
    rcases getElem?_set_cases hj with ⟨rfl, rfl⟩ | ⟨_, hj1⟩
    · rfl
    · exact hinv.fwdExit j ln hj1 hf
  · have h1 := hinv.wgCount
    rw [sum_map_getElem? Lane.pending _ i _ hl] at h1
    simp only [sum_map_set Lane.pending _ i _ _ hl]
    simpa [Lane.pending] using h1
  · exact hinv.closedWg
  · have h1 := hinv.results
    rw [sum_map_getElem? Lane.heldResults _ i _ hl] at h1
    simp only [sum_map_set Lane.heldResults _ i _ _ hl]
    simpa [Lane.heldResults] using h1
  · have h1 := hinv.inputs
    rw [sum_map_getElem? Lane.heldInputs _ i _ hl] at h1
    simp only [sum_map_set Lane.heldInputs _ i _ _ hl]
    simpa [Lane.heldInputs] using h1
  · exact hinv.returned
  · intro j ln r stop hj hw
    rcases getElem?_set_cases hj with ⟨rfl, rfl⟩ | ⟨_, hj1⟩
    · simp at hw
    · exact hinv.flag j ln r stop hj1 hw
  · intro j ln r hj hmem hstop
    rcases getElem?_set_cases hj with ⟨rfl, rfl⟩ | ⟨_, hj1⟩
    · have := hinv.stopped j _ r hl hmem hstop
      simp at this
    · exact hinv.stopped j ln r hj1 hmem hstop
  · exact hinv.order
  · exact hinv.cancelled
  · intro hns j ln hj
    rcases getElem?_set_cases hj with ⟨rfl, rfl⟩ | ⟨_, hj1⟩
    · simp [hin]
    · exact hinv.noStop hns j ln hj1

theorem outcome_heldResults (res : Out) (err : Option Err) (fw : ForwarderPC Out) :
    Lane.heldResults ({ worker := runWorkerPool.outcome res err, fwd := fw } : Lane In Out)
      = {resultOf (res, err)}
        + Lane.heldResults ({ worker := WorkerPC.recv, fwd := fw } : Lane In Out) := by
  cases err with
  | none => simp [runWorkerPool.outcome, Lane.heldResults, resultOf]
  | some e =>
    by_cases h : e.Is ErrMustStop = true <;>
      simp [runWorkerPool.outcome, Lane.heldResults, resultOf, h]

theorem outcome_flag (res : Out) (err : Option Err) (r : Result Out) (stop : Bool)
    (h : (runWorkerPool.outcome res err : WorkerPC In Out) = WorkerPC.send r stop) :
    stop = errorsIs r.err ErrMustStop ∧ stop = errorsIs err ErrMustStop := by
  cases err with
  | none =>
    simp only [runWorkerPool.outcome, WorkerPC.send.injEq] at h
    obtain ⟨rfl, rfl⟩ := h
    simp [ValueResult, errorsIs]
  | some e =>
    by_cases he : e.Is ErrMustStop = true
    · simp only [runWorkerPool.outcome, he, if_true, WorkerPC.send.injEq] at h
      obtain ⟨rfl, rfl⟩ := h
      simp [ErrorResult, errorsIs, Err.Is_businessLogic_mustStop, he]
    · simp only [runWorkerPool.outcome, he, WorkerPC.send.injEq] at h
      obtain ⟨rfl, rfl⟩ := h
      simp [ErrorResult, errorsIs, Err.Is_businessLogic_mustStop, he]

theorem outcome_is_send (A : Type) (res : Out) (err : Option Err) :
    ∃ (r : Result Out) (stop : Bool),
      (runWorkerPool.outcome res err : WorkerPC A Out) = WorkerPC.send r stop := by
  cases err with
  | none => exact ⟨_, _, rfl⟩
  | some e =>
    by_cases he : e.Is ErrMustStop = true
    · exact ⟨ErrorResult (some (Errorf ErrBusinessLogic e)), true,
        by simp [runWorkerPool.outcome, he]⟩
    · exact ⟨ErrorResult (some (Errorf ErrBusinessLogic e)), false,
        by simp [runWorkerPool.outcome, he]⟩

theorem inv_worker_call (f : Context → In → World σ → (Out × Option Err) × World σ)
    (ch : InChan In) (s : Pool In Out σ) (i : Nat) (fw : ForwarderPC Out) (x : In)
    (res : Out) (err : Option Err) (w1 : World σ) (hinv : Pool.Inv f ch s)
    (hl : s.lanes[i]? = some { worker := WorkerPC.calling x, fwd := fw })
    (hf : f s.ctx x s.world = ((res, err), w1)) :
    Pool.Inv f ch { s with world := w1,
                           lanes := s.lanes.set i
                             { worker := runWorkerPool.outcome res err, fwd := fw },
                           calls := s.calls ++ [(i, x, res, err)] } := by
  obtain ⟨r0, stop0, hout⟩ := outcome_is_send In res err
  refine { cap := ?_, closedIn := ?_, noPanic := ?_, fwdExit := ?_, wgCount := ?_,
           closedWg := ?_, results := ?_, inputs := ?_, returned := ?_, flag := ?_,
           stopped := ?_, order := ?_, cancelled := ?_, noStop := ?_ }
  · simpa using hinv.cap
  · exact hinv.closedIn
  · exact hinv.noPanic
  · intro j ln hj hfe
    rcases getElem?_set_cases hj with ⟨rfl, rfl⟩ | ⟨_, hj1⟩
    · have := hinv.fwdExit j _ hl hfe
      simp at this
    · exact hinv.fwdExit j ln hj1 hfe
  · have h1 := hinv.wgCount
    rw [sum_map_getElem? Lane.pending _ i _ hl] at h1
    simp only [sum_map_set Lane.pending _ i _ _ hl]
    simpa [Lane.pending] using h1
  · exact hinv.closedWg
  · have h1 := hinv.results
    rw [sum_map_getElem? Lane.heldResults _ i _ hl] at h1
    simp only [sum_map_set Lane.heldResults _ i _ _ hl, outcome_heldResults, List.map_append,
      List.map_cons, List.map_nil, ← Multiset.coe_add]
    rw [← h1]
    simp only [Lane.heldResults, Multiset.coe_singleton]
    abel
  · have h1 := hinv.inputs
    rw [sum_map_getElem? Lane.heldInputs _ i _ hl] at h1
    simp only [sum_map_set Lane.heldInputs _ i _ _ hl, List.map_append,
      List.map_cons, List.map_nil, ← Multiset.coe_add]
    rw [← h1]
    simp only [Lane.heldInputs, hout, Multiset.coe_singleton]
    abel
  · intro c hc
    rcases List.mem_append.mp hc with h | h
    · exact hinv.returned c h
    · simp only [List.mem_singleton] at h
      subst h
      exact ⟨s.ctx, s.world, by rw [hf]⟩
  · intro j ln r stop hj hw
    rcases getElem?_set_cases hj with ⟨rfl, rfl⟩ | ⟨_, hj1⟩
    · exact (outcome_flag res err r stop hw).1
    · exact hinv.flag j ln r stop hj1 hw
  · intro j ln r hj hmem hstop
    rcases getElem?_set_cases hj with ⟨rfl, rfl⟩ | ⟨_, hj1⟩
    · have := hinv.stopped j _ r hl hmem hstop
      simp at this
    · exact hinv.stopped j ln r hj1 hmem hstop
  · exact hinv.order
  · exact hinv.cancelled
  · intro hns j ln hj
    rcases getElem?_set_cases hj with ⟨rfl, rfl⟩ | ⟨_, hj1⟩
    · have hfalse : errorsIs err ErrMustStop = false := by
        have := hns s.ctx x s.world
        rw [hf] at this
        exact this
      refine ⟨by simp [hout], ?_, by simp [hout]⟩
      intro r hr
      have := (outcome_flag res err r true hr).2
      rw [hfalse] at this
      exact Bool.noConfusion this
    · exact hinv.noStop hns j ln hj1

theorem inv_worker_cancel (f : Context → In → World σ → (Out × Option Err) × World σ)
    (ch : InChan In) (s : Pool In Out σ) (i : Nat) (fw : ForwarderPC Out)
    (hinv : Pool.Inv f ch s)
    (hl : s.lanes[i]? = some { worker := WorkerPC.cancel, fwd := fw }) :
    Pool.Inv f ch { s with ctx := s.ctx.cancel s.world.now,
                           lanes := s.lanes.set i { worker := WorkerPC.exited, fwd := fw },
                           trace := s.trace ++ [Event.cancel i] } := by
  refine { cap := ?_, closedIn := ?_, noPanic := ?_, fwdExit := ?_, wgCount := ?_,
           closedWg := ?_, results := ?_, inputs := ?_, returned := ?_, flag := ?_,
           stopped := ?_, order := ?_, cancelled := ?_, noStop := ?_ }
  · simpa using hinv.cap
  · exact hinv.closedIn
  · exact hinv.noPanic
  · intro j ln hj hf
    rcases getElem?_set_cases hj with ⟨rfl, rfl⟩ | ⟨_, hj1⟩
    · rfl
    · exact hinv.fwdExit j ln hj1 hf
  · have h1 := hinv.wgCount
    rw [sum_map_getElem? Lane.pending _ i _ hl] at h1
    simp only [sum_map_set Lane.pending _ i _ _ hl]
    simpa [Lane.pending] using h1
  · exact hinv.closedWg
  · have h1 := hinv.results
    rw [sum_map_getElem? Lane.heldResults _ i _ hl] at h1
    simp only [sum_map_set Lane.heldResults _ i _ _ hl]
    simpa [Lane.heldResults] using h1
  · have h1 := hinv.inputs
    rw [sum_map_getElem? Lane.heldInputs _ i _ hl] at h1
    simp only [sum_map_set Lane.heldInputs _ i _ _ hl]
    simpa [Lane.heldInputs] using h1
  · exact hinv.returned
  · intro j ln r stop hj hw
    rcases getElem?_set_cases hj with ⟨rfl, rfl⟩ | ⟨_, hj1⟩
    · simp at hw
    · exact hinv.flag j ln r stop hj1 hw
  · intro j ln r hj hmem hstop
    have hmem1 : Event.emit j r ∈ s.trace := by simpa using hmem
    rcases getElem?_set_cases hj with ⟨rfl, rfl⟩ | ⟨_, hj1⟩
    · exact Or.inr ⟨rfl, by simp⟩
    · rcases hinv.stopped j ln r hj1 hmem1 hstop with h | ⟨h, hc⟩
      · exact Or.inl h
      · exact Or.inr ⟨h, by simp [hc]⟩
  · refine order_snoc s.trace _ hinv.order ?_
    intro i1 y hev
    simp at hev
  · intro j _
    cases hc : s.ctx.Err s.world.now <;> simp [Context.cancel, hc]
  · intro hns j ln hj
    rcases getElem?_set_cases hj with ⟨rfl, rfl⟩ | ⟨_, hj1⟩
    · have := (hinv.noStop hns j _ hl).1
      simp at this
    · exact hinv.noStop hns j ln hj1

theorem inv_forwarder_recv (f : Context → In → World σ → (Out × Option Err) × World σ)
    (ch : InChan In) (s : Pool In Out σ) (i : Nat) (r : Result Out) (stop : Bool)
    (hinv : Pool.Inv f ch s)
    (hl : s.lanes[i]? = some { worker := WorkerPC.send r stop, fwd := ForwarderPC.recv }) :
    Pool.Inv f ch { s with lanes := s.lanes.set i
                             { worker := if stop then WorkerPC.cancel else WorkerPC.recv,
                               fwd := ForwarderPC.send r },
                           trace := s.trace ++ [Event.emit i r] } := by
  have hflag := hinv.flag i _ r stop hl rfl
  refine { cap := ?_, closedIn := ?_, noPanic := ?_, fwdExit := ?_, wgCount := ?_,
           closedWg := ?_, results := ?_, inputs := ?_, returned := ?_, flag := ?_,
           stopped := ?_, order := ?_, cancelled := ?_, noStop := ?_ }
  · simpa using hinv.cap
  · exact hinv.closedIn
  · exact hinv.noPanic
  · intro j ln hj hf
    rcases getElem?_set_cases hj with ⟨rfl, rfl⟩ | ⟨_, hj1⟩
    · simp at hf
    · exact hinv.fwdExit j ln hj1 hf
  · have h1 := hinv.wgCount
    rw [sum_map_getElem? Lane.pending _ i _ hl] at h1
    simp only [sum_map_set Lane.pending _ i _ _ hl]
    simpa [Lane.pending] using h1
  · exact hinv.closedWg
  · have h1 := hinv.results
    rw [sum_map_getElem? Lane.heldResults _ i _ hl] at h1
    simp only [sum_map_set Lane.heldResults _ i _ _ hl]
    cases stop <;> simpa [Lane.heldResults] using h1
  · have h1 := hinv.inputs
    rw [sum_map_getElem? Lane.heldInputs _ i _ hl] at h1
    simp only [sum_map_set Lane.heldInputs _ i _ _ hl]
    cases stop <;> simpa [Lane.heldInputs] using h1
  · exact hinv.returned
  · intro j ln r1 stop1 hj hw
    rcases getElem?_set_cases hj with ⟨rfl, rfl⟩ | ⟨_, hj1⟩
    · cases stop <;> simp at hw
    · exact hinv.flag j ln r1 stop1 hj1 hw
  · intro j ln r1 hj hmem hstop
    rcases getElem?_set_cases hj with ⟨rfl, rfl⟩ | ⟨hne, hj1⟩
    · rcases List.mem_append.mp hmem with h | h
      · have := hinv.stopped j _ r1 hl h hstop
        simp at this
      · simp only [List.mem_singleton, Event.emit.injEq, true_and] at h
        subst h
        rw [hstop] at hflag
        subst hflag
        exact Or.inl rfl
    · have hmem1 : Event.emit j r1 ∈ s.trace := by
        rcases List.mem_append.mp hmem with h | h
        · exact h
        · simp only [List.mem_singleton, Event.emit.injEq] at h
          exact absurd h.1 hne
      rcases hinv.stopped j ln r1 hj1 hmem1 hstop with h | ⟨h, hc⟩
      · exact Or.inl h
      · exact Or.inr ⟨h, by simp [hc]⟩
  · refine order_snoc s.trace _ hinv.order ?_
    intro i1 y hev
    simp at hev
  · intro j hmem
    exact hinv.cancelled j (by simpa using hmem)
  · intro hns j ln hj
    rcases getElem?_set_cases hj with ⟨rfl, rfl⟩ | ⟨_, hj1⟩
    · have h2 := (hinv.noStop hns j _ hl).2.1 r
      cases stop
      · simp
      · exact absurd rfl h2
    · exact hinv.noStop hns j ln hj1

theorem inv_wg_pos (f : Context → In → World σ → (Out × Option Err) × World σ)
    (ch : InChan In) (s : Pool In Out σ) (i : Nat) (ln : Lane In Out)
    (hinv : Pool.Inv f ch s) (hl : s.lanes[i]? = some ln)
    (hfw : ln.fwd ≠ ForwarderPC.exited) : s.wg ≠ 0 ∧ s.mergeClosed = false := by
  have h1 := hinv.wgCount
  rw [sum_map_getElem? Lane.pending _ i _ hl] at h1
  have h2 : Lane.pending ln = 1 := by
    rcases ln with ⟨wk, fw⟩
    cases fw <;> simp_all [Lane.pending]
  have h3 : s.wg ≠ 0 := by omega
  refine ⟨h3, ?_⟩
  cases hc : s.mergeClosed
  · rfl
  · exact absurd (hinv.closedWg hc) h3

theorem inv_forwarder_done (f : Context → In → World σ → (Out × Option Err) × World σ)
    (ch : InChan In) (s : Pool In Out σ) (i : Nat) (hinv : Pool.Inv f ch s)
    (hl : s.lanes[i]? = some { worker := WorkerPC.exited, fwd := ForwarderPC.recv }) :
    Pool.Inv f ch { s with lanes := s.lanes.set i
                             { worker := WorkerPC.exited, fwd := ForwarderPC.exited },
                           wg := s.wg - 1 } := by
  have hpos := inv_wg_pos f ch s i _ hinv hl (by simp)
  refine { cap := ?_, closedIn := ?_, noPanic := ?_, fwdExit := ?_, wgCount := ?_,
           closedWg := ?_, results := ?_, inputs := ?_, returned := ?_, flag := ?_,
           stopped := ?_, order := ?_, cancelled := ?_, noStop := ?_ }
  · simpa using hinv.cap
  · exact hinv.closedIn
  · exact hinv.noPanic
  · intro j ln hj hf
    rcases getElem?_set_cases hj with ⟨rfl, rfl⟩ | ⟨_, hj1⟩
    · rfl
    · exact hinv.fwdExit j ln hj1 hf
  · have h1 := hinv.wgCount
    rw [sum_map_getElem? Lane.pending _ i _ hl] at h1
    simp only [sum_map_set Lane.pending _ i _ _ hl]
    simp only [Lane.pending] at h1 ⊢
    omega
  · intro hc
    have := hpos.2
    simp only at hc
    rw [hc] at this
    exact Bool.noConfusion this
  · have h1 := hinv.results
    rw [sum_map_getElem? Lane.heldResults _ i _ hl] at h1
    simp only [sum_map_set Lane.heldResults _ i _ _ hl]
    simpa [Lane.heldResults] using h1
  · have h1 := hinv.inputs
    rw [sum_map_getElem? Lane.heldInputs _ i _ hl] at h1
    simp only [sum_map_set Lane.heldInputs _ i _ _ hl]
    simpa [Lane.heldInputs] using h1
  · exact hinv.returned
  · intro j ln r stop hj hw
    rcases getElem?_set_cases hj with ⟨rfl, rfl⟩ | ⟨_, hj1⟩
    · simp at hw
    · exact hinv.flag j ln r stop hj1 hw
  · intro j ln r hj hmem hstop
    rcases getElem?_set_cases hj with ⟨rfl, rfl⟩ | ⟨_, hj1⟩
    · have h := hinv.stopped j _ r hl hmem hstop
      exact h
    · exact hinv.stopped j ln r hj1 hmem hstop
  · exact hinv.order
  · exact hinv.cancelled
  · intro hns j ln hj
    rcases getElem?_set_cases hj with ⟨rfl, rfl⟩ | ⟨_, hj1⟩
    · have h := hinv.noStop hns j _ hl
      exact h
    · exact hinv.noStop hns j ln hj1

theorem inv_forwarder_push (f : Context → In → World σ → (Out × Option Err) × World σ)
    (ch : InChan In) (s : Pool In Out σ) (i : Nat) (wk : WorkerPC In Out) (r : Result Out)
    (hinv : Pool.Inv f ch s)
    (hl : s.lanes[i]? = some { worker := wk, fwd := ForwarderPC.send r }) :
    Pool.Inv f ch { s with mergeBuf := s.mergeBuf ++ [r],
                           lanes := s.lanes.set i { worker := wk, fwd := ForwarderPC.recv } } := by
  refine { cap := ?_, closedIn := ?_, noPanic := ?_, fwdExit := ?_, wgCount := ?_,
           closedWg := ?_, results := ?_, inputs := ?_, returned := ?_, flag := ?_,
           stopped := ?_, order := ?_, cancelled := ?_, noStop := ?_ }
  · simpa using hinv.cap
  · exact hinv.closedIn
  · exact hinv.noPanic
  · intro j ln hj hf
    rcases getElem?_set_cases hj with ⟨rfl, rfl⟩ | ⟨_, hj1⟩
    · simp at hf
    · exact hinv.fwdExit j ln hj1 hf
  · have h1 := hinv.wgCount
    rw [sum_map_getElem? Lane.pending _ i _ hl] at h1
    simp only [sum_map_set Lane.pending _ i _ _ hl]
    simpa [Lane.pending] using h1
  · exact hinv.closedWg
  · have h1 := hinv.results
    rw [sum_map_getElem? Lane.heldResults _ i _ hl] at h1
    simp only [sum_map_set Lane.heldResults _ i _ _ hl, ← Multiset.coe_add]
    rw [← h1]
    simp only [Lane.heldResults, Multiset.coe_singleton]
    abel
  · have h1 := hinv.inputs
    rw [sum_map_getElem? Lane.heldInputs _ i _ hl] at h1
    simp only [sum_map_set Lane.heldInputs _ i _ _ hl]
    simpa [Lane.heldInputs] using h1
  · exact hinv.returned
  · intro j ln r1 stop hj hw
    rcases getElem?_set_cases hj with ⟨rfl, rfl⟩ | ⟨_, hj1⟩
    · have h := hinv.flag j _ r1 stop hl
      exact h hw
    · exact hinv.flag j ln r1 stop hj1 hw
  · intro j ln r1 hj hmem hstop
    rcases getElem?_set_cases hj with ⟨rfl, rfl⟩ | ⟨_, hj1⟩
    · have h := hinv.stopped j _ r1 hl hmem hstop
      exact h
    · exact hinv.stopped j ln r1 hj1 hmem hstop
  · exact hinv.order
  · exact hinv.cancelled
  · intro hns j ln hj
    rcases getElem?_set_cases hj with ⟨rfl, rfl⟩ | ⟨_, hj1⟩
    · have h := hinv.noStop hns j _ hl
      exact h
    · exact hinv.noStop hns j ln hj1

theorem inv_closer (f : Context → In → World σ → (Out × Option Err) × World σ)
    (ch : InChan In) (s : Pool In Out σ) (hinv : Pool.Inv f ch s) (hwg : s.wg = 0) :
    Pool.Inv f ch { s with mergeClosed := true } := by
  refine { cap := hinv.cap, closedIn := hinv.closedIn, noPanic := hinv.noPanic,
           fwdExit := hinv.fwdExit, wgCount := hinv.wgCount, closedWg := fun _ => hwg,
           results := hinv.results, inputs := hinv.inputs, returned := hinv.returned,
           flag := hinv.flag, stopped := hinv.stopped, order := hinv.order,
           cancelled := hinv.cancelled, noStop := hinv.noStop }

theorem inv_reader (f : Context → In → World σ → (Out × Option Err) × World σ)
    (ch : InChan In) (s : Pool In Out σ) (r : Result Out) (rest : List (Result Out))
    (hinv : Pool.Inv f ch s) (hbuf : s.mergeBuf = r :: rest) :
    Pool.Inv f ch { s with mergeBuf := rest, received := s.received ++ [r] } := by
  refine { cap := hinv.cap, closedIn := hinv.closedIn, noPanic := hinv.noPanic,
           fwdExit := hinv.fwdExit, wgCount := hinv.wgCount, closedWg := hinv.closedWg,
           results := ?_, inputs := hinv.inputs, returned := hinv.returned,
           flag := hinv.flag, stopped := hinv.stopped, order := hinv.order,
           cancelled := hinv.cancelled, noStop := hinv.noStop }
  have h1 := hinv.results
  rw [hbuf] at h1
  have e1 : ((s.received ++ [r] : List (Result Out)) : Multiset (Result Out))
      = (s.received : Multiset (Result Out)) + {r} := by
    rw [← Multiset.coe_add]
    rfl
  have e2 : ((r :: rest : List (Result Out)) : Multiset (Result Out))
      = {r} + (rest : Multiset (Result Out)) := by
    rw [← Multiset.cons_coe, Multiset.singleton_add]
  show (↑(s.received ++ [r]) : Multiset (Result Out)) + ↑rest + _ = _
  rw [e1, ← h1, e2]
  abel

theorem inv_step (f : Context → In → World σ → (Out × Option Err) × World σ)
    (ch : InChan In) (s s1 : Pool In Out σ) (a : Action) (hinv : Pool.Inv f ch s)
    (h : Pool.step (invoke (Call.ofFn f)) s a = some s1) : Pool.Inv f ch s1 := by
  unfold Pool.step at h
  rw [hinv.noPanic] at h
  simp only [Bool.false_eq_true, if_false] at h
  cases a with
  | worker i =>
    simp only [runWorkerPool.worker] at h
    rcases hl : s.lanes[i]? with _ | ⟨wk, fw⟩
    · rw [hl] at h
      exact Option.noConfusion h
    · rw [hl] at h
      cases wk with
      | recv =>
        simp only at h
        rcases hin : s.inCh with _ | ⟨x, rest⟩
        · rw [hin] at h
          simp only at h
          by_cases hc : s.inClosed = true
          · rw [if_pos hc] at h
            obtain rfl := Option.some.inj h
            have h2 := inv_worker_eof f ch s i fw hinv hl hin
            rw [hin] at h2
            exact h2
          · rw [if_neg hc] at h
            exact Option.noConfusion h
        · rw [hin] at h
          obtain rfl := Option.some.inj h
          exact inv_worker_read f ch s i fw x rest hinv hl hin
      | calling x =>
        simp only [invoke, Call.ofFn] at h
        obtain rfl := Option.some.inj h
        exact inv_worker_call f ch s i fw x _ _ _ hinv hl rfl
      | send r stop => exact Option.noConfusion h
      | cancel =>
        obtain rfl := Option.some.inj h
        exact inv_worker_cancel f ch s i fw hinv hl
      | exited => exact Option.noConfusion h
  | forwarder i =>
    simp only [MergeChanPool.forwarder] at h
    rcases hl : s.lanes[i]? with _ | ⟨wk, fw⟩
    · rw [hl] at h
      exact Option.noConfusion h
    · rw [hl] at h
      have hpos := inv_wg_pos f ch s i _ hinv hl
      cases fw with
      | recv =>
        cases wk with
        | send r stop =>
          obtain rfl := Option.some.inj h
          exact inv_forwarder_recv f ch s i r stop hinv hl
        | exited =>
          simp only at h
          rw [if_neg (hpos (by simp)).1] at h
          obtain rfl := Option.some.inj h
          exact inv_forwarder_done f ch s i hinv hl
        | recv => exact Option.noConfusion h
        | calling x => exact Option.noConfusion h
        | cancel => exact Option.noConfusion h
      | send r =>
        simp only at h
        rw [(hpos (by simp)).2] at h
        simp only [Bool.false_eq_true, if_false] at h
        by_cases hlen : s.mergeBuf.length < s.mergeCap
        · rw [if_pos hlen] at h
          obtain rfl := Option.some.inj h
          have h2 := inv_forwarder_push f ch s i wk r hinv hl
          rw [(hpos (by simp)).2] at h2
          exact h2
        · rw [if_neg hlen] at h
          exact Option.noConfusion h
      | exited => exact Option.noConfusion h
  | closer =>
    simp only [MergeChanPool.closer] at h
    by_cases hc : s.wg = 0 ∧ s.mergeClosed = false
    · rw [if_pos hc] at h
      obtain rfl := Option.some.inj h
      exact inv_closer f ch s hinv hc.1
    · rw [if_neg hc] at h
      exact Option.noConfusion h
  | reader =>
    simp only [Pool.reader] at h
    rcases hbuf : s.mergeBuf with _ | ⟨r, rest⟩
    · rw [hbuf] at h
      exact Option.noConfusion h
    · rw [hbuf] at h
      obtain rfl := Option.some.inj h
      exact inv_reader f ch s r rest hinv hbuf

theorem inv_run (f : Context → In → World σ → (Out × Option Err) × World σ)
    (ch : InChan In) (sched : List Action) :
    ∀ (s s1 : Pool In Out σ), Pool.Inv f ch s →
      Pool.run (invoke (Call.ofFn f)) s sched = some s1 → Pool.Inv f ch s1 := by
  induction sched with
  | nil =>
    intro s s1 hinv h
    simp only [Pool.run] at h
    obtain rfl := Option.some.inj h
    exact hinv
  | cons a rest ih =>
    intro s s1 hinv h
    simp only [Pool.run] at h
    rcases hs : Pool.step (invoke (Call.ofFn f)) s a with _ | s2
    · rw [hs] at h
      exact Option.noConfusion h
    · rw [hs] at h
      exact ih s2 s1 (inv_step f ch s s2 a hinv hs) h

theorem inv_init (f : Context → In → World σ → (Out × Option Err) × World σ)
    (ch : InChan In) (ctx : Context) (w : World σ) (pl : List (Chan (Result Out))) :
    Pool.Inv f ch (MergeChanPool ctx ch w pl) := by
  have hget : ∀ (i : Nat) (ln : Lane In Out),
      (pl.map (fun _ => ({ worker := WorkerPC.recv, fwd := ForwarderPC.recv } : Lane In Out)))[i]?
        = some ln → ln = { worker := WorkerPC.recv, fwd := ForwarderPC.recv } := by
    intro i ln h
    rw [List.getElem?_map] at h
    cases hp : pl[i]? with
    | none => rw [hp] at h; exact Option.noConfusion h
    | some c => rw [hp] at h; exact (Option.some.inj h).symm
  have hsum : ∀ l : List (Chan (Result Out)),
      ((l.map (fun _ => ({ worker := WorkerPC.recv, fwd := ForwarderPC.recv } : Lane In Out))).map
        Lane.pending).sum = l.length
      ∧ ((l.map (fun _ => ({ worker := WorkerPC.recv, fwd := ForwarderPC.recv } : Lane In Out))).map
        Lane.heldResults).sum = 0
      ∧ ((l.map (fun _ => ({ worker := WorkerPC.recv, fwd := ForwarderPC.recv } : Lane In Out))).map
        Lane.heldInputs).sum = 0 := by
    intro l
    induction l with
    | nil => simp
    | cons c rest ih =>
      obtain ⟨h1, h2, h3⟩ := ih
      refine ⟨?_, ?_, ?_⟩
      · simp only [List.map_cons, List.sum_cons, h1, Lane.pending, List.length_cons]
        omega
      · simp only [List.map_cons, List.sum_cons, h2, Lane.heldResults]
        simp
      · simp only [List.map_cons, List.sum_cons, h3, Lane.heldInputs]
        simp
  obtain ⟨h1, h2, h3⟩ := hsum pl
  refine { cap := ?_, closedIn := rfl, noPanic := rfl, fwdExit := ?_, wgCount := ?_,
           closedWg := ?_, results := ?_, inputs := ?_, returned := ?_, flag := ?_,
           stopped := ?_, order := ?_, cancelled := ?_, noStop := ?_ }
  · simp [MergeChanPool]
  · intro i ln hi hf
    have := hget i ln hi
    subst this
    simp at hf
  · simp only [MergeChanPool]
    exact h1.symm
  · intro hc
    simp [MergeChanPool] at hc
  · simp only [MergeChanPool, h2]
    simp
  · simp only [MergeChanPool, h3]
    simp
  · intro c hc
    simp [MergeChanPool] at hc
  · intro i ln r stop hi hw
    have := hget i ln hi
    subst this
    simp at hw
  · intro i ln r _ hmem
    simp [MergeChanPool] at hmem
  · intro j k i r x _ hj
    simp [MergeChanPool] at hj
  · intro i hmem
    simp [MergeChanPool] at hmem
  · intro _ i ln hi
    have := hget i ln hi
    subst this
    simp

theorem outcome_weight (A : Type) (res : Out) (err : Option Err) (fw : ForwarderPC Out) :
    Lane.weight ({ worker := runWorkerPool.outcome res err, fwd := fw } : Lane A Out) + 1
      = Lane.weight ({ worker := WorkerPC.calling (default : Unit), fwd := fw } : Lane Unit Out) := by
  obtain ⟨r, stop, h⟩ := outcome_is_send A res err
  simp only [Lane.weight, h]
  omega

theorem measure_step (call : CallFn In Out σ) (s s1 : Pool In Out σ) (a : Action)
    (h : Pool.step call s a = some s1) : s1.measure < s.measure := by
  unfold Pool.step at h
  by_cases hp : s.panicked = true
  · rw [if_pos hp] at h
    exact Option.noConfusion h
  · rw [if_neg hp] at h
    have hp1 : s.panicked = false := by simpa using hp
    cases a with
    | worker i =>
      simp only [runWorkerPool.worker] at h
      rcases hl : s.lanes[i]? with _ | ⟨wk, fw⟩
      · rw [hl] at h
        exact Option.noConfusion h
      · rw [hl] at h
        have hsum := sum_map_getElem? Lane.weight s.lanes i _ hl
        cases wk with
        | recv =>
          simp only at h
          rcases hin : s.inCh with _ | ⟨x, rest⟩
          · rw [hin] at h
            simp only at h
            by_cases hc : s.inClosed = true
            · rw [if_pos hc] at h
              obtain rfl := Option.some.inj h
              simp only [Pool.measure, sum_map_set Lane.weight _ i _ _ hl, hsum, Lane.weight, hin]
              omega
            · rw [if_neg hc] at h
              exact Option.noConfusion h
          · rw [hin] at h
            obtain rfl := Option.some.inj h
            simp only [Pool.measure, sum_map_set Lane.weight _ i _ _ hl, hsum, Lane.weight, hin,
              List.length_cons]
            omega
        | calling x =>
          simp only at h
          rcases hcall : call s.ctx x s.world with _ | ⟨⟨res, err⟩, w1⟩
          · rw [hcall] at h
            obtain rfl := Option.some.inj h
            simp only [Pool.measure, hp1]
            simp
          · rw [hcall] at h
            obtain rfl := Option.some.inj h
            have hw := outcome_weight In res err fw
            simp only [Pool.measure, sum_map_set Lane.weight _ i _ _ hl, hsum]
            simp only [Lane.weight] at hw ⊢
            omega
        | send r stop => exact Option.noConfusion h
        | cancel =>
          obtain rfl := Option.some.inj h
          simp only [Pool.measure, sum_map_set Lane.weight _ i _ _ hl, hsum, Lane.weight]
          omega
        | exited => exact Option.noConfusion h
    | forwarder i =>
      simp only [MergeChanPool.forwarder] at h
      rcases hl : s.lanes[i]? with _ | ⟨wk, fw⟩
      · rw [hl] at h
        exact Option.noConfusion h
      · rw [hl] at h
        have hsum := sum_map_getElem? Lane.weight s.lanes i _ hl
        cases fw with
        | recv =>
          cases wk with
          | send r stop =>
            obtain rfl := Option.some.inj h
            simp only [Pool.measure, sum_map_set Lane.weight _ i _ _ hl, hsum, Lane.weight]
            cases stop <;> simp
          | exited =>
            simp only at h
            by_cases hwg : s.wg = 0
            · rw [if_pos hwg] at h
              obtain rfl := Option.some.inj h
              simp only [Pool.measure, hp1]
              simp
            · rw [if_neg hwg] at h
              obtain rfl := Option.some.inj h
              simp only [Pool.measure, sum_map_set Lane.weight _ i _ _ hl, hsum, Lane.weight]
              omega
          | recv => exact Option.noConfusion h
          | calling x => exact Option.noConfusion h
          | cancel => exact Option.noConfusion h
        | send r =>
          simp only at h
          by_cases hc : s.mergeClosed = true
          · rw [if_pos hc] at h
            obtain rfl := Option.some.inj h
            simp only [Pool.measure, hp1]
            simp
          · rw [if_neg hc] at h
            by_cases hlen : s.mergeBuf.length < s.mergeCap
            · rw [if_pos hlen] at h
              obtain rfl := Option.some.inj h
              simp only [Pool.measure, sum_map_set Lane.weight _ i _ _ hl, hsum, Lane.weight,
                List.length_append, List.length_singleton]
              omega
            · rw [if_neg hlen] at h
              exact Option.noConfusion h
        | exited => exact Option.noConfusion h
    | closer =>
      simp only [MergeChanPool.closer] at h
      by_cases hc : s.wg = 0 ∧ s.mergeClosed = false
      · rw [if_pos hc] at h
        obtain rfl := Option.some.inj h
        simp only [Pool.measure, hc.2]
        simp
      · rw [if_neg hc] at h
        exact Option.noConfusion h
    | reader =>
      simp only [Pool.reader] at h
      rcases hbuf : s.mergeBuf with _ | ⟨r, rest⟩
      · rw [hbuf] at h
        exact Option.noConfusion h
      · rw [hbuf] at h
        obtain rfl := Option.some.inj h
        simp only [Pool.measure, hbuf, List.length_cons]
        omega

theorem measure_run (call : CallFn In Out σ) (sched : List Action) :
    ∀ (s s1 : Pool In Out σ), Pool.run call s sched = some s1 →
      sched.length + s1.measure ≤ s.measure := by
  induction sched with
  | nil =>
    intro s s1 h
    simp only [Pool.run] at h
    obtain rfl := Option.some.inj h
    simp
  | cons a rest ih =>
    intro s s1 h
    simp only [Pool.run] at h
    rcases hs : Pool.step call s a with _ | s2
    · rw [hs] at h
      exact Option.noConfusion h
    · rw [hs] at h
      have h1 := ih s2 s1 h
      have h2 := measure_step call s s2 a hs
      simp only [List.length_cons]
      omega

theorem cap_step (call : CallFn In Out σ) (s s1 : Pool In Out σ) (a : Action)
    (h : Pool.step call s a = some s1) : s1.mergeCap = s.mergeCap := by
  unfold Pool.step at h
  split at h
  · exact Option.noConfusion h
  · cases a <;>
      simp only [runWorkerPool.worker, MergeChanPool.forwarder, MergeChanPool.closer,
        Pool.reader] at h <;>
      (repeat' (split at h)) <;>
      first
        | exact Option.noConfusion h
        | (obtain rfl := Option.some.inj h; rfl)

theorem cap_run (call : CallFn In Out σ) (sched : List Action) :
    ∀ (s s1 : Pool In Out σ), Pool.run call s sched = some s1 → s1.mergeCap = s.mergeCap := by
  induction sched with
  | nil =>
    intro s s1 h
    simp only [Pool.run] at h
    obtain rfl := Option.some.inj h
    rfl
  | cons a rest ih =>
    intro s s1 h
    simp only [Pool.run] at h
    rcases hs : Pool.step call s a with _ | s2
    · rw [hs] at h
      exact Option.noConfusion h
    · rw [hs] at h
      rw [ih s2 s1 h, cap_step call s s2 a hs]

theorem inv_closed_exited (f : Context → In → World σ → (Out × Option Err) × World σ)
    (ch : InChan In) (s : Pool In Out σ) (hinv : Pool.Inv f ch s) (hwg : s.wg = 0) :
    ∀ (i : Nat) (ln : Lane In Out), s.lanes[i]? = some ln →
      ln.fwd = ForwarderPC.exited ∧ ln.worker = WorkerPC.exited := by
  intro i ln hl
  have hf : ln.fwd = ForwarderPC.exited := by
    by_contra hne
    exact (inv_wg_pos f ch s i ln hinv hl hne).1 hwg
  exact ⟨hf, hinv.fwdExit i ln hl hf⟩

theorem inv_stuck (f : Context → In → World σ → (Out × Option Err) × World σ)
    (ch : InChan In) (s : Pool In Out σ) (hinv : Pool.Inv f ch s) (hclosed : ch.closed = true)
    (hstuck : ∀ a : Action, Pool.step (invoke (Call.ofFn f)) s a = none) :
    s.mergeClosed = true ∧ s.mergeBuf = []
      ∧ ∀ (i : Nat) (ln : Lane In Out), s.lanes[i]? = some ln →
          ln.fwd = ForwarderPC.exited ∧ ln.worker = WorkerPC.exited := by
  have hin : s.inClosed = true := by rw [hinv.closedIn, hclosed]
  have hstep : ∀ a : Action,
      (match a with
        | Action.worker i => runWorkerPool.worker (invoke (Call.ofFn f)) s i
        | Action.forwarder i => MergeChanPool.forwarder s i
        | Action.closer => MergeChanPool.closer s
        | Action.reader => Pool.reader s) = none := by
    intro a
    have h := hstuck a
    unfold Pool.step at h
    rw [hinv.noPanic] at h
    simpa using h
  have hbuf : s.mergeBuf = [] := by
    have h := hstep Action.reader
    simp only [Pool.reader] at h
    rcases hb : s.mergeBuf with _ | ⟨r, rest⟩
    · rfl
    · rw [hb] at h
      exact Option.noConfusion h
  have hlanes : ∀ (i : Nat) (ln : Lane In Out), s.lanes[i]? = some ln →
      ln.fwd = ForwarderPC.exited ∧ ln.worker = WorkerPC.exited := by
    intro i ln hl
    have hw := hstep (Action.worker i)
    have hfw := hstep (Action.forwarder i)
    simp only [runWorkerPool.worker, hl] at hw
    simp only [MergeChanPool.forwarder, hl] at hfw
    have hlt : i < s.lanes.length := (List.getElem?_eq_some.mp hl).1
    have hcap : s.mergeBuf.length < s.mergeCap := by
      rw [hbuf, hinv.cap]
      simp only [List.length_nil]
      omega
    have hpush : ∀ r : Result Out,
        (if s.mergeClosed = true then some ({ s with panicked := true } : Pool In Out σ)
          else if s.mergeBuf.length < s.mergeCap then
            some { s with mergeBuf := s.mergeBuf ++ [r],
                          lanes := s.lanes.set i { ln with fwd := ForwarderPC.recv } }
          else none) = none → False := by
      intro r h
      by_cases hc : s.mergeClosed = true
      · rw [if_pos hc] at h
        exact Option.noConfusion h
      · rw [if_neg hc, if_pos hcap] at h
        exact Option.noConfusion h
    rcases ln with ⟨wk, fw⟩
    cases wk with
    | recv =>
      simp only at hw
      rcases hi : s.inCh with _ | ⟨x, rest⟩
      · rw [hi] at hw
        simp [hin] at hw
      · rw [hi] at hw
        exact Option.noConfusion hw
    | calling x =>
      simp only [invoke, Call.ofFn] at hw
      exact Option.noConfusion hw
    | cancel => exact Option.noConfusion hw
    | send r stop =>
      cases fw with
      | recv => exact Option.noConfusion hfw
      | send r1 => exact (hpush r1 hfw).elim
      | exited =>
        have := hinv.fwdExit i _ hl rfl
        simp at this
    | exited =>
      cases fw with
      | recv =>
        simp only at hfw
        by_cases hwg : s.wg = 0
        · rw [if_pos hwg] at hfw
          exact Option.noConfusion hfw
        · rw [if_neg hwg] at hfw
          exact Option.noConfusion hfw
      | send r1 => exact (hpush r1 hfw).elim
      | exited => exact ⟨rfl, rfl⟩
  have hwg : s.wg = 0 := by
    rw [hinv.wgCount]
    exact (exited_sums s.lanes hlanes).2.2
  have hc : s.mergeClosed = true := by
    have h := hstep Action.closer
    simp only [MergeChanPool.closer] at h
    by_contra hne
    have hfalse : s.mergeClosed = false := by simpa using hne
    rw [if_pos ⟨hwg, hfalse⟩] at h
    exact Option.noConfusion h
  exact ⟨hc, hbuf, hlanes⟩

theorem inv_complete (f : Context → In → World σ → (Out × Option Err) × World σ)
    (ch : InChan In) (s : Pool In Out σ) (hinv : Pool.Inv f ch s)
    (hns : ∀ (c : Context) (x : In) (v : World σ), errorsIs (f c x v).1.2 ErrMustStop = false)
    (hpos : 0 < s.lanes.length) (hc : s.mergeClosed = true) :
    (s.received ++ s.mergeBuf).Perm (s.calls.map (fun c => resultOf c.2.2))
      ∧ (s.calls.map (fun c => c.2.1)).Perm ch.items := by
  have hall := inv_closed_exited f ch s hinv (hinv.closedWg hc)
  obtain ⟨h1, h2, _⟩ := exited_sums s.lanes hall
  have hin : s.inCh = [] := by
    obtain ⟨ln, hln⟩ : ∃ ln, s.lanes[0]? = some ln :=
      ⟨s.lanes[0], List.getElem?_eq_some.mpr ⟨hpos, rfl⟩⟩
    exact (hinv.noStop hns 0 ln hln).2.2 (hall 0 ln hln).2
  have hr := hinv.results
  have hi := hinv.inputs
  rw [h1, add_zero, Multiset.coe_add] at hr
  rw [h2, add_zero, hin, Multiset.coe_nil, add_zero] at hi
  exact ⟨Multiset.coe_eq_coe.mp hr, Multiset.coe_eq_coe.mp hi⟩

theorem inv_bounded (f : Context → In → World σ → (Out × Option Err) × World σ)
    (ch : InChan In) (s : Pool In Out σ) (hinv : Pool.Inv f ch s) :
    (s.received ++ s.mergeBuf).length ≤ ch.items.length := by
  have hr := congrArg Multiset.card hinv.results
  have hi := congrArg Multiset.card hinv.inputs
  simp only [Multiset.card_add, Multiset.coe_card, List.length_map] at hr hi
  simp only [List.length_append]
  omega

theorem run_reaches_stuck (call : CallFn In Out σ) :
    ∀ (n : Nat) (s : Pool In Out σ), s.measure ≤ n →
      ∃ (sched : List Action) (s1 : Pool In Out σ),
        Pool.run call s sched = some s1 ∧ ∀ a : Action, Pool.step call s1 a = none := by
  intro n
  induction n with
  | zero =>
    intro s hs
    refine ⟨[], s, rfl, ?_⟩
    intro a
    cases hstep : Pool.step call s a with
    | none => rfl
    | some s2 =>
      have := measure_step call s s2 a hstep
      omega
  | succ m ih =>
    intro s hs
    by_cases hstuck : ∀ a : Action, Pool.step call s a = none
    · exact ⟨[], s, rfl, hstuck⟩
    · obtain ⟨a, ha⟩ := not_forall.mp hstuck
      cases hstep : Pool.step call s a with
      | none => exact absurd hstep ha
      | some s2 =>
        have hlt := measure_step call s s2 a hstep
        obtain ⟨sched, s1, hrun, hend⟩ := ih s2 (by omega)
        refine ⟨a :: sched, s1, ?_, hend⟩
        simp only [Pool.run, hstep]
        exact hrun

theorem runWorkerPool_valid (rt : Runtime) (ctx : Context) (ch : InChan In)
    (g : CallFn In Out σ) (poolSize : Int) (w : World σ) (hsize : 0 ≤ poolSize)
    (hmax : poolSize ≤ rt.maxMake) :
    runWorkerPool rt (some ctx) (some ch) (some g) poolSize w
      = some (some { call := g,
                     pool := MergeChanPool (WithCancel ctx w.now) ch w
                       (List.replicate poolSize.toNat { cap := 0, buf := [], closed := false }) },
              none) := by
  simp [runWorkerPool, validateRunFromChanInputs, spawn_in_range rt _ poolSize hsize hmax]

/-- C4 as stated fails: on a pool size of 2^62, above what `make` allocates, the pool runner
returns no stream: `make` does not return. -/
theorem C4_pool_size_too_large_panics :
    (1 : Int) ≤ 4611686018427387904
    ∧ sampleChan.closed = true
    ∧ (∀ (c : Context) (x : Nat) (v : World Unit),
        errorsIs (sampleCall c x v).1.2 ErrMustStop = false)
    ∧ runWorkerPool sampleRuntime (some Background) (some sampleChan) (Call.ofFn sampleCall)
        4611686018427387904 sampleWorld = none := by
  refine ⟨by decide, rfl, ?_, rfl⟩
  intro c x v
  unfold sampleCall
  split <;> rfl

/-- C4, amended: for a pool size of at least one that `make` allocates, a closed input stream
and a Call that returns and never returns an error under ErrMustStop, the pool runner returns a
stream; every execution of the pool is finite and does not panic; the stream never carries more
Results than there are items; when the merged channel is closed, what it has carried is, up to
order, the Results of the calls made, and the calls were made on the items, each once; every
state reached can be run on to a state where no goroutine can move; and in such a state the
merged channel is closed, and the caller has received exactly as many Results as there are
items, up to order the Results of the calls.  When the returned pair depends on the item only,
these are the Results of the items. -/
theorem C4_pool_delivers_each_result_once (rt : Runtime) (ctx : Context) (ch : InChan In)
    (f : Context → In → World σ → (Out × Option Err) × World σ) (poolSize : Int)
    (w : World σ) (hsize : 1 ≤ poolSize) (hmax : poolSize ≤ rt.maxMake)
    (hclosed : ch.closed = true)
    (hns : ∀ (c : Context) (x : In) (v : World σ), errorsIs (f c x v).1.2 ErrMustStop = false) :
    ∃ ps : PoolStream In Out σ,
      runWorkerPool rt (some ctx) (some ch) (Call.ofFn f) poolSize w = some (some ps, none)
      ∧ ps.pool.lanes.length = poolSize.toNat
      ∧ ∀ (sched : List Action) (s : Pool In Out σ),
          ps.run sched = some s →
            sched.length ≤ 5 * ch.items.length + 2 * poolSize.toNat + 2
            ∧ s.panicked = false
            ∧ (s.received ++ s.mergeBuf).length ≤ ch.items.length
            ∧ (∀ c ∈ s.calls, ∃ (cx : Context) (v : World σ), (f cx c.2.1 v).1 = c.2.2)
            ∧ (s.mergeClosed = true →
                (s.received ++ s.mergeBuf).Perm (s.calls.map (fun c => resultOf c.2.2))
                ∧ (s.calls.map (fun c => c.2.1)).Perm ch.items)
            ∧ (∃ (more : List Action) (s1 : Pool In Out σ),
                Pool.run ps.call s more = some s1
                ∧ ∀ a : Action, Pool.step ps.call s1 a = none)
            ∧ ((∀ a : Action, Pool.step ps.call s a = none) →
                s.mergeClosed = true ∧ s.mergeBuf = []
                ∧ s.received.length = ch.items.length
                ∧ s.received.Perm (s.calls.map (fun c => resultOf c.2.2))
                ∧ (s.calls.map (fun c => c.2.1)).Perm ch.items
                ∧ ((∀ (x : In) (c c1 : Context) (v v1 : World σ), (f c x v).1 = (f c1 x v1).1) →
                    s.received.Perm (ch.items.map (fun x => resultOf (f ctx x w).1)))) := by
  refine ⟨_, runWorkerPool_valid rt ctx ch _ poolSize w (by omega) hmax,
    by simp [MergeChanPool], ?_⟩
  intro sched s hrun
  have hrun : Pool.run (invoke (Call.ofFn f)) (MergeChanPool (WithCancel ctx w.now) ch w
      (List.replicate poolSize.toNat { cap := 0, buf := [], closed := false })) sched
      = some s := hrun
  have hinv := inv_run f ch sched _ s (inv_init f ch _ w _) hrun
  have hmeasure := measure_run _ sched _ s hrun
  rw [measure_init] at hmeasure
  simp only [List.length_replicate] at hmeasure
  have hlen : 0 < s.lanes.length := by
    rw [← hinv.cap, cap_run _ sched _ s hrun]
    simp only [MergeChanPool, List.length_replicate]
    omega
  refine ⟨by omega, hinv.noPanic, inv_bounded f ch s hinv, hinv.returned,
    inv_complete f ch s hinv hns hlen,
    run_reaches_stuck (invoke (Call.ofFn f)) s.measure s (le_refl _), ?_⟩
  intro hstuck
  obtain ⟨hc, hbuf, _⟩ := inv_stuck f ch s hinv hclosed hstuck
  obtain ⟨hp1, hp2⟩ := inv_complete f ch s hinv hns hlen hc
  rw [hbuf, List.append_nil] at hp1
  refine ⟨hc, hbuf, ?_, hp1, hp2, ?_⟩
  · have h1 := hp1.length_eq
    have h2 := hp2.length_eq
    simp only [List.length_map] at h1 h2
    omega
  · intro hpure
    have hmap : s.calls.map (fun c => resultOf c.2.2)
        = (s.calls.map (fun c => c.2.1)).map (fun x => resultOf (f ctx x w).1) := by
      rw [List.map_map]
      apply List.map_congr_left
      intro c hc1
      obtain ⟨cx, v, hcv⟩ := hinv.returned c hc1
      simp only [Function.comp]
      rw [← hcv, hpure c.2.1 cx ctx v w]
    rw [hmap] at hp1
    exact hp1.trans (hp2.map _)

theorem C4_pool_delivers_each_result_once_witness :
    ((1 : Int) ≤ 2) ∧ ((2 : Int) ≤ sampleRuntime.maxMake) ∧ sampleChan.closed = true
    ∧ ∃ s : Pool Nat Nat Unit,
        (∃ ps : PoolStream Nat Nat Unit,
          runWorkerPool sampleRuntime (some Background) (some sampleChan) (Call.ofFn sampleCall)
            2 sampleWorld = some (some ps, none)
          ∧ ps.run sampleSchedule = some s)
        ∧ s.mergeClosed = true
        ∧ s.received = [ValueResult 2, ErrorResult (some (Errorf ErrBusinessLogic (Err.new 7)))]
        ∧ (s.received ++ s.mergeBuf).Perm (s.calls.map (fun c => resultOf c.2.2))
        ∧ (s.calls.map (fun c => c.2.1)).Perm sampleChan.items := by
  have hns : ∀ (c : Context) (x : Nat) (v : World Unit),
      errorsIs (sampleCall c x v).1.2 ErrMustStop = false := by
    intro c x v
    unfold sampleCall
    split <;> rfl
  have hmax : (2 : Int) ≤ sampleRuntime.maxMake := by decide
  obtain ⟨ps, hpool, _, hall⟩ :=
    C4_pool_delivers_each_result_once sampleRuntime Background sampleChan sampleCall 2
      sampleWorld (by decide) hmax rfl hns
  have hpool0 : runWorkerPool sampleRuntime (some Background) (some sampleChan)
      (Call.ofFn sampleCall) 2 sampleWorld
      = some (some { call := invoke (Call.ofFn sampleCall),
                     pool := MergeChanPool (WithCancel Background sampleWorld.now) sampleChan
                       sampleWorld (List.replicate 2 { cap := 0, buf := [], closed := false }) },
              none) := rfl
  have hrun0 : ∃ s0, PoolStream.run
      ({ call := invoke (Call.ofFn sampleCall),
         pool := MergeChanPool (WithCancel Background sampleWorld.now) sampleChan
           sampleWorld (List.replicate 2 { cap := 0, buf := [], closed := false }) } :
        PoolStream Nat Nat Unit) sampleSchedule = some s0
      ∧ s0.mergeClosed = true
      ∧ s0.received = [ValueResult 2, ErrorResult (some (Errorf ErrBusinessLogic (Err.new 7)))] :=
    ⟨_, rfl, rfl, rfl⟩
  obtain ⟨s0, hrun, hc, hrec⟩ := hrun0
  have hpeq : ps = { call := invoke (Call.ofFn sampleCall),
                     pool := MergeChanPool (WithCancel Background sampleWorld.now) sampleChan
                       sampleWorld (List.replicate 2 { cap := 0, buf := [], closed := false }) } := by
    rw [hpool] at hpool0
    simpa using hpool0
  rw [← hpeq] at hrun
  obtain ⟨_, _, _, _, hcomplete, _, _⟩ := hall sampleSchedule s0 hrun
  exact ⟨by decide, hmax, rfl, s0, ⟨ps, hpool, hrun⟩, hc, hrec, (hcomplete hc).1,
    (hcomplete hc).2⟩

end PoolInvariant

end PoolFacts

/-! ## The composed Call in the runners -/

section Composition

variable {In Out σ : Type} [Inhabited Out]

end Composition

/-! ## The cancellation check -/

section Check

/-- C13: on a token that is not done the check returns nil; on a token that is done with the
cause deadline expiry it returns ErrCtxDeadline; on a token done for another cause it returns
ErrCtxCancel; two tokens with the same done-state and cause get the same result; and the check
always returns, without waiting.  The four cases of TestCheckContext follow. -/
theorem C13_checkContext_probe (ctx ctx2 : Context) (now now2 : Int) :
    (ctx.Done now = false → CheckContext (some ctx) now = some none)
    ∧ (ctx.Done now = true → ctx.Err now = some CtxErr.DeadlineExceeded →
        CheckContext (some ctx) now = some (some ErrCtxDeadline))
    ∧ (ctx.Done now = true → ctx.Err now ≠ some CtxErr.DeadlineExceeded →
        CheckContext (some ctx) now = some (some ErrCtxCancel))
    ∧ (ctx.Err now = ctx2.Err now2 →
        CheckContext (some ctx) now = CheckContext (some ctx2) now2)
    ∧ (∃ r : Option Err, CheckContext (some ctx) now = some r
        ∧ (r = none ∨ r = some ErrCtxDeadline ∨ r = some ErrCtxCancel))
    ∧ CheckContext (some Background) now = some none
    ∧ CheckContext (some (WithDeadline Background now now)) now = some (some ErrCtxDeadline)
    ∧ CheckContext (some (WithTimeout Background now 1)) (now + 1) = some (some ErrCtxDeadline)
    ∧ CheckContext (some ((WithCancel Background now).cancel now)) now
        = some (some ErrCtxCancel) := by
  refine ⟨?_, ?_, ?_, ?_, ?_, ?_, ?_, ?_, ?_⟩
  · intro h
    simp [CheckContext, h]
  · intro h he
    simp [CheckContext, h, he]
  · intro h he
    simp [CheckContext, h, he]
  · intro h
    simp [CheckContext, Context.Done, h]
  · by_cases h : ctx.Done now = true
    · by_cases he : ctx.Err now = some CtxErr.DeadlineExceeded
      · exact ⟨_, by simp [CheckContext, h, he], Or.inr (Or.inl rfl)⟩
      · exact ⟨some ErrCtxCancel, by simp [CheckContext, h, he], Or.inr (Or.inr rfl)⟩
    · exact ⟨none, by simp [CheckContext, h], Or.inl rfl⟩
  · simp [CheckContext, Context.Done, Context.Err, Background]
  · simp [CheckContext, Context.Done, Context.Err, Background, WithDeadline]
  · simp [CheckContext, Context.Done, Context.Err, Background, WithDeadline, WithTimeout]
  · simp [CheckContext, Context.Done, Context.Err, Background, WithCancel, Context.cancel]

end Check

/-! ## The Result container -/

section Container

variable {In Out σ : Type} [Inhabited Out]

theorem resultOf_one_side (p : Out × Option Err) :
    (resultOf p).Err ≠ none → (resultOf p).Value = default := by
  rcases p with ⟨out, err⟩
  cases err with
  | none => simp [resultOf, ValueResult, Result.Err]
  | some e => simp [resultOf, ErrorResult, Result.Value]

theorem goroutine_one_side (ctx : Context) (g : CallFn In Out σ) (inClosed : Bool) :
    ∀ (xs : List In) (w : World σ),
      ∀ r ∈ (runFromChan.goroutine ctx g inClosed xs w).emitted,
        r.Err ≠ none → r.Value = default := by
  intro xs
  induction xs with
  | nil => intro w r hr; simp [runFromChan.goroutine] at hr
  | cons x rest ih =>
    intro w r hr
    simp only [runFromChan.goroutine] at hr
    rcases hc : g ctx x w with _ | ⟨⟨res, err⟩, w1⟩
    · rw [hc] at hr
      simp at hr
    · rw [hc] at hr
      cases err with
      | none =>
        simp only [List.mem_cons] at hr
        rcases hr with rfl | hr
        · simp [ValueResult, Result.Err]
        · exact ih w1 r hr
      | some e =>
        by_cases he : e.Is ErrMustStop = true
        · simp only [he, if_true, List.mem_singleton] at hr
          subst hr
          simp [ErrorResult, Result.Value]
        · have he1 : e.Is ErrMustStop = false := by simpa using he
          simp only [he1, Bool.false_eq_true, if_false, List.mem_cons] at hr
          rcases hr with rfl | hr
          · simp [ErrorResult, Result.Value]
          · exact ih w1 r hr

/-- C12: the value Result of v has the value v and a nil error; the error Result of e has the
error e and the zero Output as value, so that a Result made by either has a nil error or the
zero value; and every Result that the goroutine of the single-shot
runner, the goroutine of the streaming runner or a worker pool puts on its stream with an error
that is not nil has the zero Output as value, also when the Call returned an output that is not
zero together with its error. -/
theorem C12_result_never_both (v : Out) (e : Option Err) (ctx : Context) (x : In)
    (g : CallFn In Out σ) (inCh : InChan In) (w : World σ)
    (f : Context → In → World σ → (Out × Option Err) × World σ) (poolSize : Int)
    (rt : Runtime) :
    (ValueResult v).Value = v
    ∧ (ValueResult v).Err = none
    ∧ (ErrorResult e : Result Out).Err = e
    ∧ (ErrorResult e : Result Out).Value = default
    ∧ (∀ r : Result Out, r = ValueResult v ∨ r = ErrorResult e →
        r.Err = none ∨ r.Value = default)
    ∧ (∀ run : Run In Out σ, runFromInput (some ctx) x (some g) w = (some run, none) →
        ∀ r ∈ run.emitted, r.Err ≠ none → r.Value = default)
    ∧ (∀ run : Run In Out σ, runFromChan (some ctx) (some inCh) (some g) w = (some run, none) →
        ∀ r ∈ run.emitted, r.Err ≠ none → r.Value = default)
    ∧ (∀ ps : PoolStream In Out σ,
        runWorkerPool rt (some ctx) (some inCh) (Call.ofFn f) poolSize w = some (some ps, none) →
        ∀ (sched : List Action) (s : Pool In Out σ),
          ps.run sched = some s →
          ∀ r ∈ s.received ++ s.mergeBuf, r.Err ≠ none → r.Value = default)
    ∧ (∃ run : Run Nat Nat Unit,
        RunFromInput (some Background) 1 (Call.ofFn sampleBothCall) [] sampleWorld
          = (some run, none)
        ∧ run.emitted = [{ value := 0, err := some (Errorf ErrBusinessLogic (Err.new 7)) }])
    ∧ (∃ run : Run Nat Nat Unit,
        RunFromChan (some Background) (some sampleChan) (Call.ofFn sampleBothCall) [] sampleWorld
          = (some run, none)
        ∧ run.emitted = [{ value := 0, err := some (Errorf ErrBusinessLogic (Err.new 7)) },
                         { value := 0, err := some (Errorf ErrBusinessLogic (Err.new 7)) }])
    ∧ (∃ (ps : PoolStream Nat Nat Unit) (s : Pool Nat Nat Unit),
        RunWorkerPool sampleRuntime (some Background) (some sampleChan)
          (Call.ofFn sampleBothCall) 1 [] sampleWorld = some (some ps, none)
        ∧ ps.run
            [Action.worker 0, Action.worker 0, Action.forwarder 0, Action.forwarder 0,
             Action.reader] = some s
        ∧ s.received = [{ value := 0, err := some (Errorf ErrBusinessLogic (Err.new 7)) }]) := by
  refine ⟨rfl, rfl, rfl, rfl, ?_, ?_, ?_, ?_, ⟨_, rfl, rfl⟩, ⟨_, rfl, rfl⟩,
    ⟨_, _, rfl, rfl, rfl⟩⟩
  · intro r hr
    rcases hr with rfl | rfl
    · exact Or.inl rfl
    · exact Or.inr rfl
  · intro run hrun r hr
    simp only [runFromInput, validateRunFromInputInputs, Option.isNone_some, Bool.false_eq_true,
      if_false, Prod.mk.injEq, Option.some.injEq, and_true] at hrun
    subst hrun
    simp only [runFromInput.goroutine] at hr
    rcases hc : g ctx x w with _ | ⟨⟨res, err⟩, w1⟩
    · rw [hc] at hr
      simp at hr
    · rw [hc] at hr
      cases err with
      | none =>
        simp only [List.mem_singleton] at hr
        subst hr
        simp [ValueResult, Result.Err]
      | some e1 =>
        simp only [List.mem_singleton] at hr
        subst hr
        simp [ErrorResult, Result.Value]
  · intro run hrun r hr
    rw [runFromChan_valid] at hrun
    simp only [Prod.mk.injEq, Option.some.injEq, and_true] at hrun
    subst hrun
    exact goroutine_one_side ctx g inCh.closed inCh.items w r hr
  · intro ps hpool sched s hrun r hr
    have hinit : ∃ pl, ps = { call := invoke (Call.ofFn f),
                              pool := MergeChanPool (WithCancel ctx w.now) inCh w pl } := by
      simp only [runWorkerPool, validateRunFromChanInputs, Call.ofFn, Option.isNone_some,
        Bool.false_eq_true, if_false] at hpool
      rcases hsp : SpawnResChanPool rt (Result Out) poolSize 0 with _ | pl
      · rw [hsp] at hpool
        exact Option.noConfusion hpool
      · rw [hsp] at hpool
        simp only [Option.some.injEq, Prod.mk.injEq, and_true] at hpool
        exact ⟨pl, hpool.symm⟩
    obtain ⟨pl, rfl⟩ := hinit
    have hrun : Pool.run (invoke (Call.ofFn f)) (MergeChanPool (WithCancel ctx w.now) inCh w pl)
        sched = some s := hrun
    have hinv := inv_run f inCh sched _ s (inv_init f inCh _ w pl) hrun
    have hmem : r ∈ ((s.calls.map (fun c => resultOf c.2.2) : List (Result Out)) :
        Multiset (Result Out)) := by
      rw [← hinv.results, Multiset.coe_add]
      exact Multiset.mem_add.mpr (Or.inl (Multiset.mem_coe.mpr hr))
    obtain ⟨c, _, rfl⟩ := List.mem_map.mp (Multiset.mem_coe.mp hmem)
    exact resultOf_one_side c.2.2

end Container

/-! ## The empty pool -/

section EmptyPool

variable {In Out σ : Type} [Inhabited Out]

theorem empty_step (g : CallFn In Out σ) (s s1 : Pool In Out σ) (a : Action)
    (hl : s.lanes = []) (hb : s.mergeBuf = [])
    (h : Pool.step g s a = some s1) :
    a = Action.closer ∧ s.wg = 0 ∧ s.mergeClosed = false
      ∧ s1 = { s with mergeClosed := true } := by
  unfold Pool.step at h
  by_cases hp : s.panicked = true
  · rw [if_pos hp] at h
    exact Option.noConfusion h
  · rw [if_neg hp] at h
    cases a with
    | worker i =>
      simp only [runWorkerPool.worker, hl, List.getElem?_nil] at h
      exact Option.noConfusion h
    | forwarder i =>
      simp only [MergeChanPool.forwarder, hl, List.getElem?_nil] at h
      exact Option.noConfusion h
    | closer =>
      simp only [MergeChanPool.closer] at h
      by_cases hc : s.wg = 0 ∧ s.mergeClosed = false
      · rw [if_pos hc] at h
        exact ⟨rfl, hc.1, hc.2, (Option.some.inj h).symm⟩
      · rw [if_neg hc] at h
        exact Option.noConfusion h
    | reader =>
      simp only [Pool.reader, hb] at h
      exact Option.noConfusion h

/-- C15: with a non-nil token, input stream and Call and the pool size 0, the pool runner
returns a stream and a nil error; the pool has no worker and no forwarder; the only step any
schedule can take is the close of the merged channel, which is ready at once; so no item is
read from the input stream, the Call is never invoked, no Result is yielded, and the executions
end exactly with the stream closed. -/
theorem C15_pool_of_zero_closes_empty (rt : Runtime) (ctx : Context) (inCh : InChan In)
    (g : CallFn In Out σ) (w : World σ) (bufSize : Int) :
    SpawnResChanPool rt (Result Out) 0 bufSize = some []
    ∧ ∃ ps : PoolStream In Out σ,
        runWorkerPool rt (some ctx) (some inCh) (some g) 0 w = some (some ps, none)
        ∧ RunWorkerPool rt (some ctx) (some inCh) (some g) 0 [] w = some (some ps, none)
        ∧ ps.call = g
        ∧ ps.pool.lanes = []
        ∧ ps.pool.mergeClosed = false
        ∧ (∃ s : Pool In Out σ, ps.run [Action.closer] = some s
            ∧ s.mergeClosed = true)
        ∧ ∀ (sched : List Action) (s : Pool In Out σ), ps.run sched = some s →
            (sched = [] ∨ sched = [Action.closer])
            ∧ s.lanes = []
            ∧ s.inCh = inCh.items
            ∧ s.calls = []
            ∧ s.trace = []
            ∧ s.received = []
            ∧ s.mergeBuf = []
            ∧ s.panicked = false
            ∧ (s.mergeClosed = true ↔ sched = [Action.closer])
            ∧ ((∀ a : Action, Pool.step g s a = none) ↔ s.mergeClosed = true) := by
  have h0 : ¬ ((rt.maxMake : Int) < 0) := by omega
  refine ⟨by simp [SpawnResChanPool],
    { call := g, pool := MergeChanPool (WithCancel ctx w.now) inCh w [] }, ?_, ?_,
    rfl, rfl, rfl, ⟨_, rfl, rfl⟩, ?_⟩
  · simp [runWorkerPool, validateRunFromChanInputs, SpawnResChanPool, h0]
  · simp [RunWorkerPool, applyOptions, runWorkerPool, validateRunFromChanInputs,
      SpawnResChanPool, h0]
  · intro sched s hrun
    have hrun : Pool.run g (MergeChanPool (WithCancel ctx w.now) inCh w []) sched = some s :=
      hrun
    have hshape : (sched = [] ∧ s = MergeChanPool (WithCancel ctx w.now) inCh w [])
        ∨ (sched = [Action.closer]
            ∧ s = { (MergeChanPool (WithCancel ctx w.now) inCh w [] : Pool In Out σ) with
                    mergeClosed := true }) := by
      cases sched with
      | nil =>
        simp only [Pool.run] at hrun
        exact Or.inl ⟨rfl, (Option.some.inj hrun).symm⟩
      | cons a rest =>
        simp only [Pool.run] at hrun
        rcases hs : Pool.step g (MergeChanPool (WithCancel ctx w.now) inCh w []) a with _ | s2
        · rw [hs] at hrun
          exact Option.noConfusion hrun
        · rw [hs] at hrun
          obtain ⟨ha, _, _, hs2⟩ := empty_step g _ s2 a rfl rfl hs
          subst ha
          subst hs2
          cases rest with
          | nil =>
            simp only [Pool.run] at hrun
            exact Or.inr ⟨rfl, (Option.some.inj hrun).symm⟩
          | cons b rest2 =>
            simp only [Pool.run] at hrun
            rcases hs3 : Pool.step g
                { (MergeChanPool (WithCancel ctx w.now) inCh w [] : Pool In Out σ) with
                  mergeClosed := true } b with _ | s3
            · rw [hs3] at hrun
              exact Option.noConfusion hrun
            · obtain ⟨_, _, hc, _⟩ := empty_step g _ s3 b rfl rfl hs3
              exact Bool.noConfusion hc
    rcases hshape with ⟨rfl, rfl⟩ | ⟨rfl, rfl⟩
    · refine ⟨Or.inl rfl, rfl, rfl, rfl, rfl, rfl, rfl, rfl, ?_, ?_⟩
      · simp [MergeChanPool]
      · constructor
        · intro hstuck
          have := hstuck Action.closer
          simp [Pool.step, MergeChanPool.closer, MergeChanPool] at this
        · intro hc
          simp [MergeChanPool] at hc
    · refine ⟨Or.inr rfl, rfl, rfl, rfl, rfl, rfl, rfl, rfl, ?_, ?_⟩
      · simp
      · constructor
        · intro _
          rfl
        · intro _ a
          cases hstep : Pool.step g
              { (MergeChanPool (WithCancel ctx w.now) inCh w [] : Pool In Out σ) with
                mergeClosed := true } a with
          | none => rfl
          | some s3 =>
            obtain ⟨_, _, hc, _⟩ := empty_step g _ s3 a rfl rfl hstep
            exact Bool.noConfusion hc

end EmptyPool

/-! ## The pool of one worker -/

section SinglePool

variable {In Out σ : Type} [Inhabited Out]

theorem single_index {α : Type} (a b : α) (i : Nat) (h : [a][i]? = some b) :
    i = 0 ∧ b = a := by
  cases i with
  | zero =>
    simp only [List.getElem?_cons_zero, Option.some.injEq] at h
    exact ⟨rfl, h.symm⟩
  | succ n => simp at h

end SinglePool

/-! ## The merge of any pool of channels -/

section Merge

variable {T : Type}

theorem minv_wg_pos (s : Merger T) (i : Nat) (src : Source T) (hinv : Merger.Inv s)
    (hl : s.sources[i]? = some src) (hfw : src.fwd ≠ MergePC.exited) :
    s.wg ≠ 0 ∧ s.mergeClosed = false := by
  have h1 := hinv.wgCount
  rw [sum_map_getElem? Source.pending _ i _ hl] at h1
  have h2 : Source.pending src = 1 := by
    rcases src with ⟨q, cl, fw⟩
    cases fw <;> simp_all [Source.pending]
  have h3 : s.wg ≠ 0 := by omega
  refine ⟨h3, ?_⟩
  cases hc : s.mergeClosed
  · rfl
  · exact absurd (hinv.closedWg hc) h3

theorem minv_produce (s : Merger T) (i : Nat) (q : List T) (fw : MergePC T) (v : T)
    (hinv : Merger.Inv s)
    (hl : s.sources[i]? = some { queue := q, closed := false, fwd := fw }) :
    Merger.Inv { s with sources := s.sources.set i { queue := q ++ [v], closed := false, fwd := fw },
                        sent := s.sent ++ [v] } := by
  refine { cap := ?_, noPanic := hinv.noPanic, wgCount := ?_, closedWg := hinv.closedWg,
           fwdExit := ?_, conserve := ?_ }
  · simpa using hinv.cap
  · have h1 := hinv.wgCount
    rw [sum_map_getElem? Source.pending _ i _ hl] at h1
    simp only [sum_map_set Source.pending _ i _ _ hl]
    simpa [Source.pending] using h1
  · intro j src hj hf
    rcases getElem?_set_cases hj with ⟨rfl, rfl⟩ | ⟨_, hj1⟩
    · have := (hinv.fwdExit j _ hl hf).1
      simp at this
    · exact hinv.fwdExit j src hj1 hf
  · have h1 := hinv.conserve
    rw [sum_map_getElem? Source.held _ i _ hl] at h1
    simp only [sum_map_set Source.held _ i _ _ hl]
    have e1 : ((s.sent ++ [v] : List T) : Multiset T) = (s.sent : Multiset T) + {v} := by
      rw [← Multiset.coe_add]
      rfl
    have e2 : ((q ++ [v] : List T) : Multiset T) = (q : Multiset T) + {v} := by
      rw [← Multiset.coe_add]
      rfl
    rw [e1, ← h1]
    simp only [Source.held, e2]
    abel

theorem minv_closeSource (s : Merger T) (i : Nat) (q : List T) (fw : MergePC T)
    (hinv : Merger.Inv s)
    (hl : s.sources[i]? = some { queue := q, closed := false, fwd := fw }) :
    Merger.Inv { s with sources := s.sources.set i { queue := q, closed := true, fwd := fw } } := by
  refine { cap := ?_, noPanic := hinv.noPanic, wgCount := ?_, closedWg := hinv.closedWg,
           fwdExit := ?_, conserve := ?_ }
  · simpa using hinv.cap
  · have h1 := hinv.wgCount
    rw [sum_map_getElem? Source.pending _ i _ hl] at h1
    simp only [sum_map_set Source.pending _ i _ _ hl]
    simpa [Source.pending] using h1
  · intro j src hj hf
    rcases getElem?_set_cases hj with ⟨rfl, rfl⟩ | ⟨_, hj1⟩
    · have := (hinv.fwdExit j _ hl hf).1
      simp at this
    · exact hinv.fwdExit j src hj1 hf
  · have h1 := hinv.conserve
    rw [sum_map_getElem? Source.held _ i _ hl] at h1
    simp only [sum_map_set Source.held _ i _ _ hl]
    simpa [Source.held] using h1

theorem minv_take (s : Merger T) (i : Nat) (v : T) (rest : List T) (cl : Bool)
    (hinv : Merger.Inv s)
    (hl : s.sources[i]? = some { queue := v :: rest, closed := cl, fwd := MergePC.recv }) :
    Merger.Inv { s with sources := s.sources.set i
                          { queue := rest, closed := cl, fwd := MergePC.send v } } := by
  refine { cap := ?_, noPanic := hinv.noPanic, wgCount := ?_, closedWg := hinv.closedWg,
           fwdExit := ?_, conserve := ?_ }
  · simpa using hinv.cap
  · have h1 := hinv.wgCount
    rw [sum_map_getElem? Source.pending _ i _ hl] at h1
    simp only [sum_map_set Source.pending _ i _ _ hl]
    simpa [Source.pending] using h1
  · intro j src hj hf
    rcases getElem?_set_cases hj with ⟨rfl, rfl⟩ | ⟨_, hj1⟩
    · simp at hf
    · exact hinv.fwdExit j src hj1 hf
  · have h1 := hinv.conserve
    rw [sum_map_getElem? Source.held _ i _ hl] at h1
    simp only [sum_map_set Source.held _ i _ _ hl]
    have e2 : ((v :: rest : List T) : Multiset T) = {v} + (rest : Multiset T) := by
      rw [← Multiset.cons_coe, Multiset.singleton_add]
    rw [← h1]
    simp only [Source.held, e2]
    abel

theorem minv_done (s : Merger T) (i : Nat) (hinv : Merger.Inv s)
    (hl : s.sources[i]? = some { queue := [], closed := true, fwd := MergePC.recv }) :
    Merger.Inv { s with sources := s.sources.set i
                          { queue := [], closed := true, fwd := MergePC.exited },
                        wg := s.wg - 1 } := by
  have hpos := minv_wg_pos s i _ hinv hl (by simp)
  refine { cap := ?_, noPanic := hinv.noPanic, wgCount := ?_, closedWg := ?_,
           fwdExit := ?_, conserve := ?_ }
  · simpa using hinv.cap
  · have h1 := hinv.wgCount
    rw [sum_map_getElem? Source.pending _ i _ hl] at h1
    simp only [sum_map_set Source.pending _ i _ _ hl]
    simp only [Source.pending] at h1 ⊢
    omega
  · intro hc
    have := hpos.2
    simp only at hc
    rw [hc] at this
    exact Bool.noConfusion this
  · intro j src hj hf
    rcases getElem?_set_cases hj with ⟨rfl, rfl⟩ | ⟨_, hj1⟩
    · exact ⟨rfl, rfl⟩
    · exact hinv.fwdExit j src hj1 hf
  · have h1 := hinv.conserve
    rw [sum_map_getElem? Source.held _ i _ hl] at h1
    simp only [sum_map_set Source.held _ i _ _ hl]
    simpa [Source.held] using h1

theorem minv_push (s : Merger T) (i : Nat) (q : List T) (cl : Bool) (v : T)
    (hinv : Merger.Inv s)
    (hl : s.sources[i]? = some { queue := q, closed := cl, fwd := MergePC.send v }) :
    Merger.Inv { s with mergeBuf := s.mergeBuf ++ [v],
                        sources := s.sources.set i
                          { queue := q, closed := cl, fwd := MergePC.recv } } := by
  refine { cap := ?_, noPanic := hinv.noPanic, wgCount := ?_, closedWg := hinv.closedWg,
           fwdExit := ?_, conserve := ?_ }
  · simpa using hinv.cap
  · have h1 := hinv.wgCount
    rw [sum_map_getElem? Source.pending _ i _ hl] at h1
    simp only [sum_map_set Source.pending _ i _ _ hl]
    simpa [Source.pending] using h1
  · intro j src hj hf
    rcases getElem?_set_cases hj with ⟨rfl, rfl⟩ | ⟨_, hj1⟩
    · simp at hf
    · exact hinv.fwdExit j src hj1 hf
  · have h1 := hinv.conserve
    rw [sum_map_getElem? Source.held _ i _ hl] at h1
    simp only [sum_map_set Source.held _ i _ _ hl]
    have e1 : ((s.mergeBuf ++ [v] : List T) : Multiset T)
        = (s.mergeBuf : Multiset T) + {v} := by
      rw [← Multiset.coe_add]
      rfl
    rw [← h1, e1]
    simp only [Source.held]
    abel

theorem minv_closer (s : Merger T) (hinv : Merger.Inv s) (hwg : s.wg = 0) :
    Merger.Inv { s with mergeClosed := true } := by
  exact { cap := hinv.cap, noPanic := hinv.noPanic, wgCount := hinv.wgCount,
          closedWg := fun _ => hwg, fwdExit := hinv.fwdExit, conserve := hinv.conserve }

theorem minv_reader (s : Merger T) (v : T) (rest : List T) (hinv : Merger.Inv s)
    (hbuf : s.mergeBuf = v :: rest) :
    Merger.Inv { s with mergeBuf := rest, received := s.received ++ [v] } := by
  refine { cap := hinv.cap, noPanic := hinv.noPanic, wgCount := hinv.wgCount,
           closedWg := hinv.closedWg, fwdExit := hinv.fwdExit, conserve := ?_ }
  have h1 := hinv.conserve
  rw [hbuf] at h1
  have e1 : ((s.received ++ [v] : List T) : Multiset T) = (s.received : Multiset T) + {v} := by
    rw [← Multiset.coe_add]
    rfl
  have e2 : ((v :: rest : List T) : Multiset T) = {v} + (rest : Multiset T) := by
    rw [← Multiset.cons_coe, Multiset.singleton_add]
  show (↑(s.received ++ [v]) : Multiset T) + ↑rest + _ = _
  rw [e1, ← h1, e2]
  abel

theorem minv_step (s s1 : Merger T) (a : MergeAction T) (hinv : Merger.Inv s)
    (h : Merger.step s a = some s1) : Merger.Inv s1 := by
  unfold Merger.step at h
  rw [hinv.noPanic] at h
  simp only [Bool.false_eq_true, if_false] at h
  cases a with
  | send i v =>
    simp only [Merger.produce] at h
    rcases hl : s.sources[i]? with _ | ⟨q, cl, fw⟩
    · rw [hl] at h
      exact Option.noConfusion h
    · rw [hl] at h
      cases cl with
      | true => simp at h
      | false =>
        simp only [Bool.false_eq_true, if_false] at h
        obtain rfl := Option.some.inj h
        exact minv_produce s i q fw v hinv hl
  | close i =>
    simp only [Merger.closeSource] at h
    rcases hl : s.sources[i]? with _ | ⟨q, cl, fw⟩
    · rw [hl] at h
      exact Option.noConfusion h
    · rw [hl] at h
      cases cl with
      | true => simp at h
      | false =>
        simp only [Bool.false_eq_true, if_false] at h
        obtain rfl := Option.some.inj h
        exact minv_closeSource s i q fw hinv hl
  | forwarder i =>
    simp only [Merger.forwarder] at h
    rcases hl : s.sources[i]? with _ | ⟨q, cl, fw⟩
    · rw [hl] at h
      exact Option.noConfusion h
    · rw [hl] at h
      have hpos := minv_wg_pos s i _ hinv hl
      cases fw with
      | recv =>
        cases q with
        | cons v rest =>
          obtain rfl := Option.some.inj h
          exact minv_take s i v rest cl hinv hl
        | nil =>
          cases cl with
          | false => simp at h
          | true =>
            simp only [if_true] at h
            rw [if_neg (hpos (by simp)).1] at h
            obtain rfl := Option.some.inj h
            exact minv_done s i hinv hl
      | send v =>
        simp only at h
        rw [(hpos (by simp)).2] at h
        simp only [Bool.false_eq_true, if_false] at h
        by_cases hlen : s.mergeBuf.length < s.mergeCap
        · rw [if_pos hlen] at h
          obtain rfl := Option.some.inj h
          have h2 := minv_push s i q cl v hinv hl
          rw [(hpos (by simp)).2] at h2
          exact h2
        · rw [if_neg hlen] at h
          exact Option.noConfusion h
      | exited => exact Option.noConfusion h
  | closer =>
    simp only [Merger.closer] at h
    by_cases hc : s.wg = 0 ∧ s.mergeClosed = false
    · rw [if_pos hc] at h
      obtain rfl := Option.some.inj h
      exact minv_closer s hinv hc.1
    · rw [if_neg hc] at h
      exact Option.noConfusion h
  | reader =>
    simp only [Merger.reader] at h
    rcases hbuf : s.mergeBuf with _ | ⟨v, rest⟩
    · rw [hbuf] at h
      exact Option.noConfusion h
    · rw [hbuf] at h
      obtain rfl := Option.some.inj h
      exact minv_reader s v rest hinv hbuf

theorem minv_run (sched : List (MergeAction T)) :
    ∀ (s s1 : Merger T), Merger.Inv s → Merger.run s sched = some s1 → Merger.Inv s1 := by
  induction sched with
  | nil =>
    intro s s1 hinv h
    simp only [Merger.run] at h
    obtain rfl := Option.some.inj h
    exact hinv
  | cons a rest ih =>
    intro s s1 hinv h
    simp only [Merger.run] at h
    rcases hs : Merger.step s a with _ | s2
    · rw [hs] at h
      exact Option.noConfusion h
    · rw [hs] at h
      exact ih s2 s1 (minv_step s s2 a hinv hs) h

theorem minv_start (pl : List (Chan T)) : Merger.Inv (Merger.start pl) := by
  have hsum : ∀ l : List (Chan T),
      ((l.map (fun c => ({ queue := c.buf, closed := c.closed, fwd := MergePC.recv } :
          Source T))).map Source.pending).sum = l.length
      ∧ ((l.map (fun c => ({ queue := c.buf, closed := c.closed, fwd := MergePC.recv } :
          Source T))).map Source.held).sum
        = ((l.foldr (fun c acc => c.buf ++ acc) [] : List T) : Multiset T) := by
    intro l
    induction l with
    | nil => exact ⟨rfl, rfl⟩
    | cons c rest ih =>
      obtain ⟨h1, h2⟩ := ih
      refine ⟨?_, ?_⟩
      · simp only [List.map_cons, List.sum_cons, h1, Source.pending, List.length_cons]
        omega
      · simp only [List.map_cons, List.sum_cons, h2, Source.held, List.foldr_cons,
          ← Multiset.coe_add, add_zero]
  obtain ⟨h1, h2⟩ := hsum pl
  refine { cap := ?_, noPanic := rfl, wgCount := ?_, closedWg := ?_, fwdExit := ?_,
           conserve := ?_ }
  · simp [Merger.start]
  · simp only [Merger.start]
    exact h1.symm
  · intro hc
    simp [Merger.start] at hc
  · intro i src hi hf
    simp only [Merger.start, List.getElem?_map] at hi
    cases hp : pl[i]? with
    | none => rw [hp] at hi; exact Option.noConfusion hi
    | some c =>
      rw [hp] at hi
      have := Option.some.inj hi
      subst this
      simp at hf
  · simp only [Merger.start, h2]
    simp

theorem mmeasure_step (s s1 : Merger T) (a : MergeAction T) (hns : a.isSend = false)
    (h : Merger.step s a = some s1) : s1.measure < s.measure := by
  unfold Merger.step at h
  by_cases hp : s.panicked = true
  · rw [if_pos hp] at h
    exact Option.noConfusion h
  · rw [if_neg hp] at h
    have hp1 : s.panicked = false := by simpa using hp
    cases a with
    | send i v => exact Bool.noConfusion hns
    | close i =>
      simp only [Merger.closeSource] at h
      rcases hl : s.sources[i]? with _ | ⟨q, cl, fw⟩
      · rw [hl] at h
        exact Option.noConfusion h
      · rw [hl] at h
        have hsum := sum_map_getElem? Source.weight s.sources i _ hl
        cases cl with
        | true => simp at h
        | false =>
          simp only [Bool.false_eq_true, if_false] at h
          obtain rfl := Option.some.inj h
          simp only [Merger.measure, sum_map_set Source.weight _ i _ _ hl, hsum, Source.weight]
          simp
    | forwarder i =>
      simp only [Merger.forwarder] at h
      rcases hl : s.sources[i]? with _ | ⟨q, cl, fw⟩
      · rw [hl] at h
        exact Option.noConfusion h
      · rw [hl] at h
        have hsum := sum_map_getElem? Source.weight s.sources i _ hl
        cases fw with
        | recv =>
          cases q with
          | cons v rest =>
            obtain rfl := Option.some.inj h
            simp only [Merger.measure, sum_map_set Source.weight _ i _ _ hl, hsum, Source.weight,
              List.length_cons]
            omega
          | nil =>
            cases cl with
            | false => simp at h
            | true =>
              simp only [if_true] at h
              by_cases hwg : s.wg = 0
              · rw [if_pos hwg] at h
                obtain rfl := Option.some.inj h
                simp only [Merger.measure, hp1]
                simp
              · rw [if_neg hwg] at h
                obtain rfl := Option.some.inj h
                simp only [Merger.measure, sum_map_set Source.weight _ i _ _ hl, hsum,
                  Source.weight]
                omega
        | send v =>
          simp only at h
          by_cases hc : s.mergeClosed = true
          · rw [if_pos hc] at h
            obtain rfl := Option.some.inj h
            simp only [Merger.measure, hp1]
            simp
          · rw [if_neg hc] at h
            by_cases hlen : s.mergeBuf.length < s.mergeCap
            · rw [if_pos hlen] at h
              obtain rfl := Option.some.inj h
              simp only [Merger.measure, sum_map_set Source.weight _ i _ _ hl, hsum,
                Source.weight, List.length_append, List.length_singleton]
              omega
            · rw [if_neg hlen] at h
              exact Option.noConfusion h
        | exited => exact Option.noConfusion h
    | closer =>
      simp only [Merger.closer] at h
      by_cases hc : s.wg = 0 ∧ s.mergeClosed = false
      · rw [if_pos hc] at h
        obtain rfl := Option.some.inj h
        simp only [Merger.measure, hc.2]
        simp
      · rw [if_neg hc] at h
        exact Option.noConfusion h
    | reader =>
      simp only [Merger.reader] at h
      rcases hbuf : s.mergeBuf with _ | ⟨v, rest⟩
      · rw [hbuf] at h
        exact Option.noConfusion h
      · rw [hbuf] at h
        obtain rfl := Option.some.inj h
        simp only [Merger.measure, hbuf, List.length_cons]
        omega

theorem mclosed_step (s s1 : Merger T) (a : MergeAction T)
    (hall : ∀ src ∈ s.sources, src.closed = true) (h : Merger.step s a = some s1) :
    (∀ src ∈ s1.sources, src.closed = true) ∧ a.isSend = false ∧ s1.sent = s.sent := by
  unfold Merger.step at h
  by_cases hp : s.panicked = true
  · rw [if_pos hp] at h
    exact Option.noConfusion h
  · rw [if_neg hp] at h
    have hset : ∀ (i : Nat) (b : Source T), b.closed = true →
        ∀ src ∈ s.sources.set i b, src.closed = true := by
      intro i b hb src hsrc
      rcases List.mem_or_eq_of_mem_set hsrc with h1 | h1
      · exact hall src h1
      · rw [h1]
        exact hb
    cases a with
    | send i v =>
      simp only [Merger.produce] at h
      rcases hl : s.sources[i]? with _ | src
      · rw [hl] at h
        exact Option.noConfusion h
      · rw [hl] at h
        have hc := hall src (List.mem_iff_getElem?.mpr ⟨i, hl⟩)
        simp [hc] at h
    | close i =>
      simp only [Merger.closeSource] at h
      rcases hl : s.sources[i]? with _ | src
      · rw [hl] at h
        exact Option.noConfusion h
      · rw [hl] at h
        have hc := hall src (List.mem_iff_getElem?.mpr ⟨i, hl⟩)
        simp [hc] at h
    | forwarder i =>
      simp only [Merger.forwarder] at h
      rcases hl : s.sources[i]? with _ | ⟨q, cl, fw⟩
      · rw [hl] at h
        exact Option.noConfusion h
      · rw [hl] at h
        have hc : cl = true := hall _ (List.mem_iff_getElem?.mpr ⟨i, hl⟩)
        subst hc
        cases fw with
        | recv =>
          cases q with
          | cons v rest =>
            obtain rfl := Option.some.inj h
            exact ⟨hset i _ rfl, rfl, rfl⟩
          | nil =>
            simp only [if_true] at h
            by_cases hwg : s.wg = 0
            · rw [if_pos hwg] at h
              obtain rfl := Option.some.inj h
              exact ⟨hall, rfl, rfl⟩
            · rw [if_neg hwg] at h
              obtain rfl := Option.some.inj h
              exact ⟨hset i _ rfl, rfl, rfl⟩
        | send v =>
          simp only at h
          by_cases hc : s.mergeClosed = true
          · rw [if_pos hc] at h
            obtain rfl := Option.some.inj h
            exact ⟨hall, rfl, rfl⟩
          · rw [if_neg hc] at h
            by_cases hlen : s.mergeBuf.length < s.mergeCap
            · rw [if_pos hlen] at h
              obtain rfl := Option.some.inj h
              exact ⟨hset i _ rfl, rfl, rfl⟩
            · rw [if_neg hlen] at h
              exact Option.noConfusion h
        | exited => exact Option.noConfusion h
    | closer =>
      simp only [Merger.closer] at h
      by_cases hc : s.wg = 0 ∧ s.mergeClosed = false
      · rw [if_pos hc] at h
        obtain rfl := Option.some.inj h
        exact ⟨hall, rfl, rfl⟩
      · rw [if_neg hc] at h
        exact Option.noConfusion h
    | reader =>
      simp only [Merger.reader] at h
      rcases hbuf : s.mergeBuf with _ | ⟨v, rest⟩
      · rw [hbuf] at h
        exact Option.noConfusion h
      · rw [hbuf] at h
        obtain rfl := Option.some.inj h
        exact ⟨hall, rfl, rfl⟩

theorem mclosed_run (sched : List (MergeAction T)) :
    ∀ (s s1 : Merger T), (∀ src ∈ s.sources, src.closed = true) →
      Merger.run s sched = some s1 →
      (∀ src ∈ s1.sources, src.closed = true) ∧ s1.sent = s.sent
        ∧ sched.length + s1.measure ≤ s.measure := by
  induction sched with
  | nil =>
    intro s s1 hall h
    simp only [Merger.run] at h
    obtain rfl := Option.some.inj h
    exact ⟨hall, rfl, by simp⟩
  | cons a rest ih =>
    intro s s1 hall h
    simp only [Merger.run] at h
    rcases hs : Merger.step s a with _ | s2
    · rw [hs] at h
      exact Option.noConfusion h
    · rw [hs] at h
      obtain ⟨hall2, hns, hsent⟩ := mclosed_step s s2 a hall hs
      obtain ⟨h1, h2, h3⟩ := ih s2 s1 hall2 h
      have hlt := mmeasure_step s s2 a hns hs
      refine ⟨h1, by rw [h2, hsent], ?_⟩
      simp only [List.length_cons]
      omega

theorem mcloser_step (s s1 : Merger T) (a : MergeAction T) (h : Merger.step s a = some s1) :
    (a.isCloser = true → s.mergeClosed = false ∧ s1.mergeClosed = true)
      ∧ (a.isCloser = false → s1.mergeClosed = s.mergeClosed) := by
  unfold Merger.step at h
  split at h
  · exact Option.noConfusion h
  · cases a <;>
      simp only [Merger.produce, Merger.closeSource, Merger.forwarder, Merger.closer,
        Merger.reader] at h <;>
      (repeat' (split at h)) <;>
      first
        | exact Option.noConfusion h
        | (obtain rfl := Option.some.inj h
           simp_all [MergeAction.isCloser])

theorem mcloser_run (sched : List (MergeAction T)) :
    ∀ (s s1 : Merger T), Merger.run s sched = some s1 →
      sched.countP MergeAction.isCloser + (if s.mergeClosed = true then 1 else 0)
        = (if s1.mergeClosed = true then 1 else 0) := by
  induction sched with
  | nil =>
    intro s s1 h
    simp only [Merger.run] at h
    obtain rfl := Option.some.inj h
    simp
  | cons a rest ih =>
    intro s s1 h
    simp only [Merger.run] at h
    rcases hs : Merger.step s a with _ | s2
    · rw [hs] at h
      exact Option.noConfusion h
    · rw [hs] at h
      have h1 := ih s2 s1 h
      obtain ⟨hc1, hc2⟩ := mcloser_step s s2 a hs
      cases hcl : a.isCloser with
      | true =>
        obtain ⟨e1, e2⟩ := hc1 hcl
        rw [List.countP_cons_of_pos _ _ hcl]
        rw [e2] at h1
        rw [e1]
        simp only [if_true, Bool.false_eq_true, if_false] at h1 ⊢
        omega
      | false =>
        have e := hc2 hcl
        rw [List.countP_cons_of_neg _ _ (by simp [hcl])]
        rw [e] at h1
        exact h1

theorem mstuck (s : Merger T) (hinv : Merger.Inv s)
    (hall : ∀ src ∈ s.sources, src.closed = true)
    (hstuck : ∀ a : MergeAction T, Merger.step s a = none) :
    s.mergeClosed = true ∧ s.mergeBuf = []
      ∧ ∀ (i : Nat) (src : Source T), s.sources[i]? = some src → src.fwd = MergePC.exited := by
  have hfwd : ∀ i : Nat, Merger.forwarder s i = none := by
    intro i
    have h := hstuck (MergeAction.forwarder i)
    unfold Merger.step at h
    rw [hinv.noPanic] at h
    simpa using h
  have hbuf : s.mergeBuf = [] := by
    have h := hstuck MergeAction.reader
    unfold Merger.step at h
    rw [hinv.noPanic] at h
    simp only [Bool.false_eq_true, if_false, Merger.reader] at h
    rcases hb : s.mergeBuf with _ | ⟨v, rest⟩
    · rfl
    · rw [hb] at h
      exact Option.noConfusion h
  have hsrc : ∀ (i : Nat) (src : Source T), s.sources[i]? = some src →
      src.fwd = MergePC.exited := by
    intro i src hl
    have hfw := hfwd i
    simp only [Merger.forwarder, hl] at hfw
    have hc : src.closed = true := hall src (List.mem_iff_getElem?.mpr ⟨i, hl⟩)
    have hlt : i < s.sources.length := (List.getElem?_eq_some.mp hl).1
    rcases src with ⟨q, cl, fw⟩
    simp only at hc
    subst hc
    cases fw with
    | recv =>
      cases q with
      | cons v rest => exact Option.noConfusion hfw
      | nil =>
        simp only [if_true] at hfw
        by_cases hwg : s.wg = 0
        · rw [if_pos hwg] at hfw
          exact Option.noConfusion hfw
        · rw [if_neg hwg] at hfw
          exact Option.noConfusion hfw
    | send v =>
      simp only at hfw
      by_cases hmc : s.mergeClosed = true
      · rw [if_pos hmc] at hfw
        exact Option.noConfusion hfw
      · have hcap : s.mergeBuf.length < s.mergeCap := by
          rw [hbuf, hinv.cap]
          simp only [List.length_nil]
          omega
        rw [if_neg hmc, if_pos hcap] at hfw
        exact Option.noConfusion hfw
    | exited => rfl
  have hwg : s.wg = 0 := by
    rw [hinv.wgCount]
    apply List.sum_eq_zero
    intro m hm
    obtain ⟨src, hsrc1, rfl⟩ := List.mem_map.mp hm
    obtain ⟨i, hi⟩ := List.getElem?_of_mem hsrc1
    simp [Source.pending, hsrc i src hi]
  have hc : s.mergeClosed = true := by
    have h := hstuck MergeAction.closer
    unfold Merger.step at h
    rw [hinv.noPanic] at h
    simp only [Bool.false_eq_true, if_false, Merger.closer] at h
    by_contra hne
    have hfalse : s.mergeClosed = false := by simpa using hne
    rw [if_pos ⟨hwg, hfalse⟩] at h
    exact Option.noConfusion h
  exact ⟨hc, hbuf, hsrc⟩

theorem mreach (n : Nat) :
    ∀ s : Merger T, (∀ src ∈ s.sources, src.closed = true) → s.measure ≤ n →
      ∃ (more : List (MergeAction T)) (s1 : Merger T),
        Merger.run s more = some s1 ∧ ∀ a : MergeAction T, Merger.step s1 a = none := by
  induction n with
  | zero =>
    intro s hall hs
    refine ⟨[], s, rfl, ?_⟩
    intro a
    cases hstep : Merger.step s a with
    | none => rfl
    | some s2 =>
      have := mmeasure_step s s2 a (mclosed_step s s2 a hall hstep).2.1 hstep
      omega
  | succ m ih =>
    intro s hall hs
    by_cases hstuck : ∀ a : MergeAction T, Merger.step s a = none
    · exact ⟨[], s, rfl, hstuck⟩
    · obtain ⟨a, ha⟩ := not_forall.mp hstuck
      cases hstep : Merger.step s a with
      | none => exact absurd hstep ha
      | some s2 =>
        obtain ⟨hall2, hns, _⟩ := mclosed_step s s2 a hall hstep
        have hlt := mmeasure_step s s2 a hns hstep
        obtain ⟨more, s1, hrun, hend⟩ := ih s2 hall2 (by omega)
        refine ⟨a :: more, s1, ?_, hend⟩
        simp only [Merger.run, hstep]
        exact hrun

theorem mclosed_drained (s : Merger T) (hinv : Merger.Inv s) (hc : s.mergeClosed = true) :
    (∀ (i : Nat) (src : Source T), s.sources[i]? = some src →
        src.closed = true ∧ src.queue = [] ∧ src.fwd = MergePC.exited)
      ∧ (s.received ++ s.mergeBuf).Perm s.sent := by
  have hwg := hinv.closedWg hc
  have hall : ∀ (i : Nat) (src : Source T), s.sources[i]? = some src →
      src.closed = true ∧ src.queue = [] ∧ src.fwd = MergePC.exited := by
    intro i src hl
    have hf : src.fwd = MergePC.exited := by
      by_contra hne
      exact (minv_wg_pos s i src hinv hl hne).1 hwg
    obtain ⟨h1, h2⟩ := hinv.fwdExit i src hl hf
    exact ⟨h1, h2, hf⟩
  refine ⟨hall, ?_⟩
  have hheld : (s.sources.map Source.held).sum = 0 := by
    apply List.sum_eq_zero
    intro m hm
    obtain ⟨src, hsrc1, rfl⟩ := List.mem_map.mp hm
    obtain ⟨i, hi⟩ := List.getElem?_of_mem hsrc1
    obtain ⟨_, h2, h3⟩ := hall i src hi
    simp [Source.held, h2, h3]
  have h := hinv.conserve
  rw [hheld, add_zero, Multiset.coe_add] at h
  exact Multiset.coe_eq_coe.mp h

/-- C11: in every state that the merge of any pool of source channels reaches, under any
schedule of producers sending and closing, forwarders, closer and reader: no goroutine of the
merge has panicked; if the merged channel is closed then every source is closed, holds no
value, and its forwarder holds none; the merged channel has been closed at most once and cannot
be closed again; every value put on a source is either still held by a source or has been put
on the merged channel, exactly once, so that a closed merged channel has carried exactly the
values put on the sources; and once every source is closed, every further execution is finite,
can be run on to a state where nothing can move, and in such a state the merged channel is
closed and the reader has received exactly the values put on the sources. -/
theorem C11_merge_closes_after_all_sources (pl : List (Chan T)) (sched : List (MergeAction T))
    (s : Merger T) (hrun : Merger.run (Merger.start pl) sched = some s) :
    s.panicked = false
    ∧ (s.mergeClosed = true →
        ∀ (i : Nat) (src : Source T), s.sources[i]? = some src →
          src.closed = true ∧ src.queue = [] ∧ src.fwd = MergePC.exited)
    ∧ sched.countP MergeAction.isCloser ≤ 1
    ∧ (s.mergeClosed = true → Merger.step s MergeAction.closer = none)
    ∧ ((s.received : Multiset T) + (s.mergeBuf : Multiset T)
          + (s.sources.map Source.held).sum = (s.sent : Multiset T))
    ∧ (s.mergeClosed = true → (s.received ++ s.mergeBuf).Perm s.sent)
    ∧ ((∀ src ∈ s.sources, src.closed = true) →
        (∀ (more : List (MergeAction T)) (s1 : Merger T), Merger.run s more = some s1 →
            more.length ≤ s.measure
            ∧ s1.sent = s.sent
            ∧ ((∀ a : MergeAction T, Merger.step s1 a = none) →
                s1.mergeClosed = true ∧ s1.mergeBuf = [] ∧ s1.received.Perm s.sent))
        ∧ ∃ (more : List (MergeAction T)) (s1 : Merger T),
            Merger.run s more = some s1 ∧ ∀ a : MergeAction T, Merger.step s1 a = none) := by
  have hinv := minv_run sched _ s (minv_start pl) hrun
  have hcount := mcloser_run sched _ s hrun
  refine ⟨hinv.noPanic, fun hc => (mclosed_drained s hinv hc).1, ?_, ?_, hinv.conserve,
    fun hc => (mclosed_drained s hinv hc).2, ?_⟩
  · by_cases hc : s.mergeClosed = true
    · simp only [Merger.start, Bool.false_eq_true, if_false, hc, if_true] at hcount
      omega
    · simp only [Merger.start, Bool.false_eq_true, if_false, hc] at hcount
      omega
  · intro hc
    simp [Merger.step, Merger.closer, hinv.noPanic, hc]
  · intro hall
    refine ⟨?_, mreach s.measure s hall (le_refl _)⟩
    intro more s1 hmore
    obtain ⟨hall1, hsent, hlen⟩ := mclosed_run more s s1 hall hmore
    have hinv1 := minv_run more s s1 hinv hmore
    refine ⟨by omega, hsent, ?_⟩
    intro hstuck
    obtain ⟨hc, hbuf, _⟩ := mstuck s1 hinv1 hall1 hstuck
    have hperm := (mclosed_drained s1 hinv1 hc).2
    rw [hbuf, List.append_nil, hsent] at hperm
    exact ⟨hc, hbuf, hperm⟩

theorem C11_merge_closes_after_all_sources_witness :
    ∃ s : Merger Nat,
      Merger.run (Merger.start samplePool) sampleMergeSchedule = some s
      ∧ s.mergeClosed = true
      ∧ s.received = [7, 8]
      ∧ s.sent = [7, 8]
      ∧ (∀ (i : Nat) (src : Source Nat), s.sources[i]? = some src →
          src.closed = true ∧ src.queue = [] ∧ src.fwd = MergePC.exited)
      ∧ (s.received ++ s.mergeBuf).Perm s.sent := by
  have hrun0 : ∃ s0, Merger.run (Merger.start samplePool) sampleMergeSchedule = some s0
      ∧ s0.mergeClosed = true ∧ s0.received = [7, 8] ∧ s0.sent = [7, 8] :=
    ⟨_, rfl, rfl, rfl, rfl⟩
  obtain ⟨s0, hrun, hc, hrec, hsent⟩ := hrun0
  obtain ⟨_, hdrained, _, _, _, hperm, _⟩ :=
    C11_merge_closes_after_all_sources samplePool sampleMergeSchedule s0 hrun
  exact ⟨s0, hrun, hc, hrec, hsent, hdrained hc, hperm hc⟩

end Merge

end Merec
